import Mathlib

/-!
Verification of the 2048 game engine (gym-game2048).

The definitions below are a shallow embedding of the engine in
src/gym_game2048/envs/game2048.py.  Boards store exponents: a cell holds
a natural number e, where e = 0 means empty and e >= 1 means a tile of
numeric value 2 ^ e.  The board is a function from row and column indices
to exponents.  The imperative per-line merge loop of the source
(the method named with underscore combiner) is embedded as a fold over
the line, carrying the same state the loop carries: the output line, the
merged flags, the cursor, and the list of merge scores.
-/

namespace Game2048
/-! ### numpy int32 score arithmetic

The output array new_line of the merge loop has dtype int32 in the
source, so the per merge score 2 ** new_line[cur - 1] is computed by
numpy integer power on int32 operands: binary exponentiation whose
every multiplication wraps at 32 bits, which for base 2 is the
mathematical power reduced into the signed 32 bit range.  The python
builtin sum then adds these int32 scalars one at a time, each addition
again an int32 addition, and the score update folds the result into the
score with one more int32 addition.  wrap32 reduces an integer into the
signed 32 bit range; pow2_32 is the int32 value of 2 to a natural
exponent; sum32 is the int32 left fold of the builtin sum; add32 is one
int32 addition. -/

def wrap32 (x : Int) : Int := (x + 2 ^ 31) % 2 ^ 32 - 2 ^ 31

def pow2_32 (e : Nat) : Int := wrap32 (2 ^ e)

def sum32 (l : List Int) : Int := l.foldl (fun acc x => wrap32 (acc + x)) 0

def add32 (a b : Int) : Int := wrap32 (a + b)
/-! ### The abstract merge recursion

mergePairs describes the result of one merge pass over the nonzero
exponents of a line, in scan order: two equal consecutive values collapse
into one incremented value and the result never merges again.
mergeScores lists the int32 score value recorded for every tile produced
by a merge (the wrap of 2 ^ e, where e is the new exponent), in scan
order.  groupMerges splits the scanned values into the
groups (singletons and merged pairs) that produce each output tile.
-/

def mergePairs : List Nat → List Nat
  | [] => []
  | [a] => [a]
  | a :: b :: rest => if a = b then (a + 1) :: mergePairs rest else a :: mergePairs (b :: rest)

def mergeScores : List Nat → List Int
  | [] => []
  | [_] => []
  | a :: b :: rest => if a = b then pow2_32 (a + 1) :: mergeScores rest else mergeScores (b :: rest)

def collapseGroup : List Nat → Nat
  | [a] => a
  | [a, _] => a + 1
  | _ => 0

def groupMerges : List Nat → List (List Nat)
  | [] => []
  | [a] => [[a]]
  | a :: b :: rest => if a = b then [a, b] :: groupMerges rest else [a] :: groupMerges (b :: rest)

/-- Abstract merge machine.  The first argument lists the values already
placed in the line, most recently placed first; the boolean records
whether the most recently placed value was produced by a merge (in which
case it may not merge again); the third argument is the remaining scan.
Returns the final placed list (most recent first) and the merge scores. -/
def mergeFromR : List Nat → Bool → List Nat → List Nat × List Int
  | rp, _, [] => (rp, [])
  | [], _, v :: rest => mergeFromR [v] false rest
  | a :: rp, blocked, v :: rest =>
    if a = v ∧ blocked = false then
      let m := mergeFromR ((a + 1) :: rp) true rest
      (m.1, pow2_32 (a + 1) :: m.2)
    else
      let m := mergeFromR (v :: (a :: rp)) false rest
      (m.1, m.2)

/-- Numeric value of a stored exponent: 0 is empty, e >= 1 is worth 2 ^ e. -/
def cellValue (e : Nat) : Nat := if e = 0 then 0 else 2 ^ e

def groupScore (g : List Nat) : Option Int :=
  match g with
  | [a, _] => some (pow2_32 (a + 1))
  | _ => none

/-! ### The combiner, embedded from the source

The source method keeps, per line: the output array new_line initialized
to zeros, the merged-flag array is_combined initialized to zeros, the
cursor cur, and it appends each merge value to the running score list.
combStepL is the loop body for way = 0 (scan left to right, cursor starts
at 0 and increases); combStepR is the loop body for way = 1 (scan right
to left, cursor starts at size - 1 and decreases).  The cursor is a
natural number here; in the way = 1 loop the source lets the cursor reach
-1 only after the whole line has been placed, after which it is never
read again, so truncated subtraction is observationally equal. -/

structure CombSt where
  newLine : List Nat
  isCombined : List Nat
  cur : Nat
  scores : List Int

def combStepL (s : CombSt) (v : Nat) : CombSt :=
  if v ≠ 0 then
    if s.cur = 0 then
      { s with newLine := s.newLine.set s.cur v, cur := s.cur + 1 }
    else
      let w := s.newLine.getD (s.cur - 1) 0
      if w = v ∧ s.isCombined.getD (s.cur - 1) 0 = 0 then
        { s with newLine := s.newLine.set (s.cur - 1) (w + 1),
                 scores := s.scores ++ [pow2_32 (w + 1)],
                 isCombined := s.isCombined.set (s.cur - 1) 1 }
      else
        { s with newLine := s.newLine.set s.cur v, cur := s.cur + 1 }
  else s

def combStepR (n : Nat) (s : CombSt) (v : Nat) : CombSt :=
  if v ≠ 0 then
    if s.cur = n - 1 then
      { s with newLine := s.newLine.set s.cur v, cur := s.cur - 1 }
    else
      let w := s.newLine.getD (s.cur + 1) 0
      if w = v ∧ s.isCombined.getD (s.cur + 1) 0 = 0 then
        { s with newLine := s.newLine.set (s.cur + 1) (w + 1),
                 scores := s.scores ++ [pow2_32 (w + 1)],
                 isCombined := s.isCombined.set (s.cur + 1) 1 }
      else
        { s with newLine := s.newLine.set s.cur v, cur := s.cur - 1 }
  else s

def combinerL (n : Nat) (line : List Nat) : CombSt :=
  line.foldl combStepL ⟨List.replicate n 0, List.replicate n 0, 0, []⟩

def combinerR (n : Nat) (line : List Nat) : CombSt :=
  line.reverse.foldl (combStepR n) ⟨List.replicate n 0, List.replicate n 0, n - 1, []⟩

/-- The per-line merge of the source: way 0 compacts toward index 0,
way 1 compacts toward index size - 1. -/
def combiner (n : Nat) (way : Nat) (line : List Nat) : CombSt :=
  if way = 0 then combinerL n line else combinerR n line

def padRight (n : Nat) (l : List Nat) : List Nat := l ++ List.replicate (n - l.length) 0

/-! ### Line predicates

litPair holds when two equal nonzero values sit in directly adjacent
cells of a line (the adjacency check of the source reads exactly this).
gap holds when some empty cell sits strictly before some occupied cell.
pairAdj holds when a list has two equal consecutive entries (applied to
the filtered nonzero values of a line). -/

def pairAdj : List Nat → Prop
  | x :: y :: t => x = y ∨ pairAdj (y :: t)
  | _ => False

def litPair : List Nat → Prop
  | x :: y :: t => (x ≠ 0 ∧ x = y) ∨ litPair (y :: t)
  | _ => False

def gap : List Nat → Prop
  | x :: t => (x = 0 ∧ ∃ y ∈ t, y ≠ 0) ∨ gap t
  | [] => False

/-! ### The board and the engine operations

The board is an n by n grid of exponents, indexed by row then column,
with the top left corner at row 0, column 0.  Actions are 0 left,
1 right, 2 up, 3 down, as in the source. -/

abbrev Board (n : Nat) := Fin n → Fin n → Nat

def rowOf {n : Nat} (b : Board n) (r : Fin n) : List Nat := (List.finRange n).map (b r)

def colOf {n : Nat} (b : Board n) (c : Fin n) : List Nat :=
  (List.finRange n).map (fun r => b r c)

def transposeB {n : Nat} (b : Board n) : Board n := fun r c => b c r

/-- One directional move of the step method of the source: actions 0 and
1 run the combiner over every row and write each result back; actions 2
and 3 do the same over every column with way action - 2. -/
def apply_move {n : Nat} (b : Board n) (action : Nat) : Board n :=
  if action = 0 then fun r c => (combiner n 0 (rowOf b r)).newLine.getD c.val 0
  else if action = 1 then fun r c => (combiner n 1 (rowOf b r)).newLine.getD c.val 0
  else if action = 2 then fun r c => (combiner n 0 (colOf b c)).newLine.getD r.val 0
  else fun r c => (combiner n 1 (colOf b c)).newLine.getD r.val 0

/-- The merge values appended to the per-step score list during one
move, line by line in loop order. -/
def move_scores {n : Nat} (b : Board n) (action : Nat) : List Int :=
  if action < 2 then
    ((List.finRange n).map (fun r => (combiner n action (rowOf b r)).scores)).flatten
  else
    ((List.finRange n).map (fun c => (combiner n (action - 2) (colOf b c)).scores)).flatten

/-- The adjacency check of the source: way 0 looks for two equal nonzero
cells side by side in some row, way 1 for two equal nonzero cells one
above the other in some column. -/
def check_if_same {n : Nat} (b : Board n) (way : Nat) : Bool :=
  if way = 0 then
    (List.finRange n).any fun r => (List.finRange n).any fun c =>
      if h : c.val + 1 < n then
        !(b r c == 0) && (b r c == b r ⟨c.val + 1, h⟩)
      else false
  else
    (List.finRange n).any fun c => (List.finRange n).any fun r =>
      if h : r.val + 1 < n then
        !(b r c == 0) && (b r c == b ⟨r.val + 1, h⟩ c)
      else false

def npAny {n : Nat} (v : Fin n → Bool) : Bool := (List.finRange n).any v

/-- The scanning loop of the per-direction legality check: the checker
is the running bitwise or of the lines already scanned; the scan fires
when the checker has an occupied position where the current line is
empty, written in the source as any of checker xor line, and checker. -/
def slideScan {n : Nat} : List (Fin n → Bool) → (Fin n → Bool) → Bool
  | [], _ => false
  | l :: ls, checker =>
    if npAny (fun r => (xor (checker r) (l r)) && checker r) then true
    else slideScan ls (fun r => checker r || l r)

def colOcc {n : Nat} (b : Board n) (i : Fin n) : Fin n → Bool := fun r => b r i != 0

def rowOcc {n : Nat} (b : Board n) (i : Fin n) : Fin n → Bool := fun c => b i c != 0

/-- Indices size - 2 down to 0, the loop order of the slide check for
ways 0 and 2. -/
def descIdx (n : Nat) : List (Fin n) := ((List.finRange n).dropLast).reverse

/-- Indices 1 up to size - 1, the loop order of the slide check for ways
1 and 3. -/
def ascIdx (n : Nat) : List (Fin n) := (List.finRange n).drop 1

/-- The per-direction slide legality check of the source.  For way 0 the
checker starts at the occupancy of the rightmost column and the scan
walks the columns from size - 2 down to 0; ways 1, 2, 3 are the three
mirrored loops. -/
def check_legal {n : Nat} (b : Board n) (way : Nat) : Bool :=
  if hn : n = 0 then false
  else
    if way = 0 then
      slideScan ((descIdx n).map (colOcc b)) (colOcc b ⟨n - 1, by omega⟩)
    else if way = 1 then
      slideScan ((ascIdx n).map (colOcc b)) (colOcc b ⟨0, by omega⟩)
    else if way = 2 then
      slideScan ((descIdx n).map (rowOcc b)) (rowOcc b ⟨n - 1, by omega⟩)
    else
      slideScan ((ascIdx n).map (rowOcc b)) (rowOcc b ⟨0, by omega⟩)

/-- The final value of entry i of the legal move vector after the update
method of the source runs: the axis adjacency check enables both of its
directions, and any direction still disabled is enabled when its slide
check passes. -/
def update_legal_moves {n : Nat} (b : Board n) (i : Nat) : Bool :=
  (if i < 2 then check_if_same b 0 else check_if_same b 1) || check_legal b i

/-- Modelled from the spec words for the slide check: for each scanned
line, if it has an occupied position where the running mask has a zero,
the direction is legal, else the line is ored into the mask. -/
def slideScanSpec {n : Nat} : List (Fin n → Bool) → (Fin n → Bool) → Bool
  | [], _ => false
  | l :: ls, mask =>
    if npAny (fun r => l r && !(mask r)) then true
    else slideScanSpec ls (fun r => mask r || l r)

/-- Modelled from the spec words: the running occupancy mask starts at
the line at the compaction edge (index 0 for ways 0 and 2, index
size - 1 for ways 1 and 3) and the scan walks outward from the
compaction edge. -/
def slide_check_spec {n : Nat} (b : Board n) (way : Nat) : Bool :=
  if hn : n = 0 then false
  else
    if way = 0 then
      slideScanSpec ((ascIdx n).map (colOcc b)) (colOcc b ⟨0, by omega⟩)
    else if way = 1 then
      slideScanSpec ((descIdx n).map (colOcc b)) (colOcc b ⟨n - 1, by omega⟩)
    else if way = 2 then
      slideScanSpec ((ascIdx n).map (rowOcc b)) (rowOcc b ⟨0, by omega⟩)
    else
      slideScanSpec ((descIdx n).map (rowOcc b)) (rowOcc b ⟨n - 1, by omega⟩)

/-- A 4 by 4 board whose first row is 1 0 1 0 and whose other cells are
empty.  A left move slides the second tile into the gap, so the slide
check of the source must fire for way 0, but the scan described by the
spec does not. -/
def demoBoard : Board 4 := fun r c =>
  (([[1, 0, 1, 0], [0, 0, 0, 0], [0, 0, 0, 0], [0, 0, 0, 0]].getD r.val []).getD c.val 0)

/-- The corrected scan: the mask starts at the line farthest from the
compaction edge, the scan walks toward the compaction edge, and the
direction is declared legal when some scanned line has an empty position
where the running mask is occupied. -/
def slideScanAmended {n : Nat} : List (Fin n → Bool) → (Fin n → Bool) → Bool
  | [], _ => false
  | l :: ls, mask =>
    if npAny (fun r => mask r && !(l r)) then true
    else slideScanAmended ls (fun r => mask r || l r)

def slide_check_amended {n : Nat} (b : Board n) (way : Nat) : Bool :=
  if hn : n = 0 then false
  else
    if way = 0 then
      slideScanAmended ((descIdx n).map (colOcc b)) (colOcc b ⟨n - 1, by omega⟩)
    else if way = 1 then
      slideScanAmended ((ascIdx n).map (colOcc b)) (colOcc b ⟨0, by omega⟩)
    else if way = 2 then
      slideScanAmended ((descIdx n).map (rowOcc b)) (rowOcc b ⟨n - 1, by omega⟩)
    else
      slideScanAmended ((ascIdx n).map (rowOcc b)) (rowOcc b ⟨0, by omega⟩)

def boardSum {n : Nat} (b : Board n) : Nat :=
  ∑ r : Fin n, ∑ c : Fin n, cellValue (b r c)

/-! ### Randomness, spawning, and the step controller

The random draws of the source (the uniform index into the empty cells
and the 90 percent coin for the new exponent) are passed in as explicit
arguments: an index idx, guaranteed by the random source to be below the
number of empty cells, and a boolean that is true when the uniform draw
was below 0.9.  A spawn on a board with no empty cell raises in the
source; here it returns none. -/

def random_1_2 (lt09 : Bool) : Nat := if lt09 then 1 else 2

def is_reach_goal {n : Nat} (b : Board n) (board_goal : Nat) : Bool :=
  decide (∃ r c : Fin n, b r c = board_goal)

def is_game_over {n : Nat} (b : Board n) : Bool :=
  if decide (∃ r c : Fin n, b r c = 0) then false
  else if check_if_same b 0 || check_if_same b 1 then false
  else true

/-- The empty positions of the board in row major order, as the where
call of the source lists them. -/
def zero_pos {n : Nat} (b : Board n) : List (Fin n × Fin n) :=
  ((List.finRange n).map (fun r =>
    ((List.finRange n).filter (fun c => b r c == 0)).map (fun c => (r, c)))).flatten

def setCell {n : Nat} (b : Board n) (r c : Fin n) (v : Nat) : Board n :=
  fun r2 c2 => if r2 = r ∧ c2 = c then v else b r2 c2

def spawn_block {n : Nat} (b : Board n) (idx : Nat) (newv : Nat) : Option (Board n) :=
  match (zero_pos b)[idx]? with
  | some rc => some (setCell b rc.1 rc.2 newv)
  | none => none

structure EnvState (n : Nat) where
  board : Board n
  score : Int
  best_score : Int
  legal_moves : Fin 4 → Bool
  is_legal : Bool
  score_per_step : List Int

def update_legal {n : Nat} (b : Board n) : Fin 4 → Bool := fun i => update_legal_moves b i.val

/-- The reset method: a fresh all-zero board, two seeding spawns, score
zero, and the legal move vector recomputed at the end.  The best score
persists across resets and is passed through. -/
def reset (n : Nat) (best : Int) (i1 : Nat) (v1 : Bool) (i2 : Nat) (v2 : Bool) :
    Option (EnvState n) :=
  match spawn_block ((fun _ _ => 0) : Board n) i1 (random_1_2 v1) with
  | none => none
  | some b1 =>
    match spawn_block b1 i2 (random_1_2 v2) with
    | none => none
    | some b2 =>
      some { board := b2, score := 0, best_score := best,
             legal_moves := update_legal b2, is_legal := true, score_per_step := [] }

/-- The step method: the legality gate, the move, the score update, the
goal check before any spawn, the spawn, the game over check, the best
score update on a loss, and the legal move vector recomputed at the end
in every branch.  g is the board goal exponent. -/
def step {n : Nat} (g : Nat) (s : EnvState n) (action : Fin 4) (sidx : Nat) (sv : Bool) :
    Option (EnvState n × Int × Bool) :=
  if s.legal_moves action then
    let b2 := apply_move s.board action.val
    let sps := move_scores s.board action.val
    let score2 := add32 s.score (sum32 sps)
    if is_reach_goal b2 g then
      some ({ board := b2, score := score2, best_score := s.best_score,
              legal_moves := update_legal b2, is_legal := true, score_per_step := sps },
            1, true)
    else
      match spawn_block b2 sidx (random_1_2 sv) with
      | none => none
      | some b3 =>
        if is_game_over b3 then
          some ({ board := b3, score := score2, best_score := max s.best_score score2,
                  legal_moves := update_legal b3, is_legal := true, score_per_step := sps },
                -1, true)
        else
          some ({ board := b3, score := score2, best_score := s.best_score,
                  legal_moves := update_legal b3, is_legal := true, score_per_step := sps },
                0, false)
  else
    some ({ board := s.board, score := s.score, best_score := s.best_score,
            legal_moves := update_legal s.board, is_legal := false, score_per_step := [] },
          0, false)

instance {n : Nat} : Inhabited (EnvState n) :=
  ⟨{ board := fun _ _ => 0, score := 0, best_score := 0, legal_moves := fun _ => false,
     is_legal := false, score_per_step := [] }⟩

/-- A concrete size 4 state with the legal move vector of its board,
used to instantiate the legal step theorem. -/
def s3demo : EnvState 4 :=
  { board := demoBoard, score := 0, best_score := 0, legal_moves := update_legal demoBoard,
    is_legal := true, score_per_step := [] }

/-- A concrete size 4 state whose legal move vector is all unset, used
to instantiate the illegal step theorem. -/
def s6demo : EnvState 4 :=
  { board := demoBoard, score := 5, best_score := 7, legal_moves := fun _ => false,
    is_legal := true, score_per_step := [] }

/-- A size 6 board whose first row starts with two adjacent tiles of
exponent 30.  A goal exponent above 31 is accepted by the constructor
assertion, and at size 6 a tile of exponent 30 is attainable, so merging
this pair is part of a legitimate game towards such a goal; the merge
produces a tile of exponent 31, whose recorded int32 score value wraps
to a negative number. -/
def b7demo : Board 6 := fun r c =>
  if r.val = 0 ∧ c.val = 0 then 30 else if r.val = 0 ∧ c.val = 1 then 30 else 0

/-- A concrete size 6 state over b7demo with the legal move vector of
its board, used in the score wraparound counterexamples. -/
def s7demo : EnvState 6 :=
  { board := b7demo, score := 0, best_score := 0, legal_moves := update_legal b7demo,
    is_legal := true, score_per_step := [] }

/-- The reachable configurations of the engine: a reset followed by any
sequence of steps, where a sequence stops once a step reports
terminated.  The boolean records whether the last step terminated. -/
inductive Reach (n g : Nat) : EnvState n → Bool → Prop where
  | reset_ok (best : Int) (i1 : Nat) (v1 : Bool) (i2 : Nat) (v2 : Bool) (s : EnvState n) :
      reset n best i1 v1 i2 v2 = some s → Reach n g s false
  | step_ok (s : EnvState n) (a : Fin 4) (sidx : Nat) (sv : Bool) (s2 : EnvState n)
      (rew : Int) (t : Bool) :
      Reach n g s false → step g s a sidx sv = some (s2, rew, t) → Reach n g s2 t

/-! ### List helper lemmas -/

theorem getD_append_left (xs ys : List Nat) (i : Nat) (h : i < xs.length) :
    (xs ++ ys).getD i 0 = xs.getD i 0 := by
  induction xs generalizing i with
  | nil => simp at h
  | cons a t ih =>
    cases i with
    | zero => rfl
    | succ j =>
      simp only [List.cons_append, List.getD_cons_succ]
      exact ih j (by simpa using h)

theorem getD_append_right (xs ys : List Nat) (i : Nat) (h : xs.length ≤ i) :
    (xs ++ ys).getD i 0 = ys.getD (i - xs.length) 0 := by
  induction xs generalizing i with
  | nil => simp
  | cons a t ih =>
    cases i with
    | zero => simp at h
    | succ j =>
      simp only [List.cons_append, List.getD_cons_succ, List.length_cons]
      have e : j + 1 - (t.length + 1) = j - t.length := by omega
      rw [e]
      exact ih j (by simpa using h)

theorem set_append_left (xs ys : List Nat) (i : Nat) (v : Nat) (h : i < xs.length) :
    (xs ++ ys).set i v = xs.set i v ++ ys := by
  induction xs generalizing i with
  | nil => simp at h
  | cons a t ih =>
    cases i with
    | zero => rfl
    | succ j =>
      simp only [List.cons_append, List.set_cons_succ]
      rw [ih j (by simpa using h)]

theorem set_append_right (xs ys : List Nat) (i : Nat) (v : Nat) (h : xs.length ≤ i) :
    (xs ++ ys).set i v = xs ++ ys.set (i - xs.length) v := by
  induction xs generalizing i with
  | nil => simp
  | cons a t ih =>
    cases i with
    | zero => simp at h
    | succ j =>
      simp only [List.cons_append, List.set_cons_succ, List.length_cons]
      have e : j + 1 - (t.length + 1) = j - t.length := by omega
      rw [e]
      rw [ih j (by simpa using h)]

theorem getD_replicate_zero (k i : Nat) : (List.replicate k (0 : Nat)).getD i 0 = 0 := by
  induction k generalizing i with
  | zero => simp
  | succ m ih =>
    cases i with
    | zero => rfl
    | succ j => simpa using ih j

theorem concat_getD (xs : List Nat) (a : Nat) : (xs ++ [a]).getD xs.length 0 = a := by
  rw [getD_append_right xs [a] xs.length (Nat.le_refl _)]
  simp

theorem replicate_set_zero (k v : Nat) (h : 0 < k) :
    (List.replicate k (0 : Nat)).set 0 v = v :: List.replicate (k - 1) 0 := by
  cases k with
  | zero => omega
  | succ m => simp [List.replicate_succ]

theorem replicate_succ_set_last (m v : Nat) :
    (List.replicate (m + 1) (0 : Nat)).set m v = List.replicate m 0 ++ [v] := by
  induction m with
  | zero => simp
  | succ p ih =>
    simp only [List.replicate_succ, List.set_cons_succ]
    rw [← List.replicate_succ, ih]
    simp [List.replicate_succ]

theorem replicate_set_last (k v : Nat) (h : 0 < k) :
    (List.replicate k (0 : Nat)).set (k - 1) v = List.replicate (k - 1) 0 ++ [v] := by
  cases k with
  | zero => omega
  | succ m => simpa using replicate_succ_set_last m v

/-- Two-step list induction matching the recursion pattern of mergePairs. -/
theorem twoStepInd (P : List Nat → Prop) (h0 : P []) (h1 : ∀ a, P [a])
    (h2 : ∀ a b t, P t → P (b :: t) → P (a :: b :: t)) : ∀ l, P l
  | [] => h0
  | [a] => h1 a
  | a :: b :: t => h2 a b t (twoStepInd P h0 h1 h2 t) (twoStepInd P h0 h1 h2 (b :: t))
  termination_by l => l.length

theorem mergePairs_nil : mergePairs [] = [] := rfl

theorem mergePairs_single (a : Nat) : mergePairs [a] = [a] := rfl

theorem mergePairs_cons_cons (a b : Nat) (rest : List Nat) :
    mergePairs (a :: b :: rest) =
      if a = b then (a + 1) :: mergePairs rest else a :: mergePairs (b :: rest) := rfl

theorem mergeScores_cons_cons (a b : Nat) (rest : List Nat) :
    mergeScores (a :: b :: rest) =
      if a = b then pow2_32 (a + 1) :: mergeScores rest else mergeScores (b :: rest) := rfl

theorem length_mergePairs_le : ∀ l : List Nat, (mergePairs l).length ≤ l.length := by
  refine twoStepInd _ ?_ ?_ ?_
  · simp [mergePairs]
  · simp [mergePairs]
  · intro a b t ht hbt
    rw [mergePairs_cons_cons]
    simp only [List.length_cons] at ht hbt ⊢
    by_cases hab : a = b
    · rw [if_pos hab]
      simp only [List.length_cons]
      omega
    · rw [if_neg hab]
      simp only [List.length_cons]
      omega

theorem mem_mergePairs : ∀ l : List Nat, ∀ x ∈ mergePairs l, x ∈ l ∨ ∃ a ∈ l, x = a + 1 := by
  refine twoStepInd _ ?_ ?_ ?_
  · simp [mergePairs]
  · simp [mergePairs]
  · intro a b t ht hbt x hx
    rw [mergePairs_cons_cons] at hx
    by_cases hab : a = b
    · simp only [if_pos hab, List.mem_cons] at hx
      rcases hx with h | h
      · exact Or.inr ⟨a, by simp, h⟩
      · rcases ht x h with h2 | ⟨c, hc, hxc⟩
        · exact Or.inl (by simp [h2])
        · exact Or.inr ⟨c, by simp [hc], hxc⟩
    · simp only [if_neg hab, List.mem_cons] at hx
      rcases hx with h | h
      · exact Or.inl (by simp [h])
      · rcases hbt x h with h2 | ⟨c, hc, hxc⟩
        · exact Or.inl (by simpa using Or.inr h2)
        · exact Or.inr ⟨c, by simpa using Or.inr hc, hxc⟩

theorem mergePairs_ne_zero : ∀ l : List Nat, (∀ v ∈ l, v ≠ 0) → ∀ x ∈ mergePairs l, x ≠ 0 := by
  intro l hl x hx
  rcases mem_mergePairs l x hx with h | ⟨a, _, hxa⟩
  · exact hl x h
  · omega

theorem mergePairs_le_of_lt (vs : List Nat) (g : Nat) (h : ∀ v ∈ vs, v < g) :
    ∀ w ∈ mergePairs vs, w ≤ g := by
  intro w hw
  rcases mem_mergePairs vs w hw with h1 | ⟨a, ha, hwa⟩
  · exact Nat.le_of_lt (h w h1)
  · have := h a ha
    omega

theorem mergeFromR_spec : ∀ vs : List Nat,
    (∀ rp a, mergeFromR (a :: rp) false vs = ((mergePairs (a :: vs)).reverse ++ rp, mergeScores (a :: vs)))
    ∧ (∀ rp, mergeFromR rp true vs = ((mergePairs vs).reverse ++ rp, mergeScores vs)) := by
  intro vs
  induction vs with
  | nil =>
    refine ⟨fun rp a => ?_, fun rp => ?_⟩
    · simp [mergeFromR, mergePairs, mergeScores]
    · cases rp <;> simp [mergeFromR, mergePairs, mergeScores]
  | cons v rest ih =>
    obtain ⟨ihA, ihB⟩ := ih
    constructor
    · intro rp a
      by_cases hav : a = v
      · rw [show mergeFromR (a :: rp) false (v :: rest) =
            (if a = v ∧ false = false then
              ((mergeFromR ((a + 1) :: rp) true rest).1,
               pow2_32 (a + 1) :: (mergeFromR ((a + 1) :: rp) true rest).2)
             else
              ((mergeFromR (v :: (a :: rp)) false rest).1,
               (mergeFromR (v :: (a :: rp)) false rest).2)) from rfl]
        rw [if_pos ⟨hav, rfl⟩, ihB ((a + 1) :: rp)]
        rw [mergePairs_cons_cons, mergeScores_cons_cons, if_pos hav, if_pos hav]
        simp
      · rw [show mergeFromR (a :: rp) false (v :: rest) =
            (if a = v ∧ false = false then
              ((mergeFromR ((a + 1) :: rp) true rest).1,
               pow2_32 (a + 1) :: (mergeFromR ((a + 1) :: rp) true rest).2)
             else
              ((mergeFromR (v :: (a :: rp)) false rest).1,
               (mergeFromR (v :: (a :: rp)) false rest).2)) from rfl]
        rw [if_neg (by simp [hav]), ihA (a :: rp) v]
        rw [mergePairs_cons_cons, mergeScores_cons_cons, if_neg hav, if_neg hav]
        simp
    · intro rp
      cases rp with
      | nil =>
        rw [show mergeFromR [] true (v :: rest) = mergeFromR [v] false rest from rfl]
        rw [ihA [] v]
      | cons a rp =>
        rw [show mergeFromR (a :: rp) true (v :: rest) =
            (if a = v ∧ true = false then
              ((mergeFromR ((a + 1) :: rp) true rest).1,
               pow2_32 (a + 1) :: (mergeFromR ((a + 1) :: rp) true rest).2)
             else
              ((mergeFromR (v :: (a :: rp)) false rest).1,
               (mergeFromR (v :: (a :: rp)) false rest).2)) from rfl]
        rw [if_neg (by simp), ihA (a :: rp) v]

theorem mergeFromR_run (vs : List Nat) (b : Bool) :
    mergeFromR [] b vs = ((mergePairs vs).reverse, mergeScores vs) := by
  cases vs with
  | nil => cases b <;> rfl
  | cons v rest =>
    have h : mergeFromR [] b (v :: rest) = mergeFromR [v] false rest := by
      cases b <;> rfl
    rw [h, (mergeFromR_spec rest).1 [] v]
    simp

theorem mergePairs_value_sum : ∀ vs : List Nat, (∀ v ∈ vs, v ≠ 0) →
    ((mergePairs vs).map cellValue).sum = (vs.map cellValue).sum := by
  refine twoStepInd _ ?_ ?_ ?_
  · intro _; rfl
  · intro a _; rfl
  · intro a b t ht hbt hnz
    rw [mergePairs_cons_cons]
    by_cases hab : a = b
    · rw [if_pos hab]
      have ha : a ≠ 0 := hnz a (by simp)
      have hsum := ht (fun v hv => hnz v (by simp [hv]))
      simp only [List.map_cons, List.sum_cons] at *
      have hv1 : cellValue (a + 1) = 2 ^ (a + 1) := by simp [cellValue]
      have hv2 : cellValue a = 2 ^ a := by simp [cellValue, ha]
      have hv3 : cellValue b = 2 ^ a := by rw [← hab]; exact hv2
      have hp : (2 : Nat) ^ (a + 1) = 2 ^ a + 2 ^ a := by rw [pow_succ]; ring
      rw [hv1, hv2, hv3, hsum, hp]
      ring
    · rw [if_neg hab]
      have hsum := hbt (fun v hv => hnz v (by simp [hv]))
      simp only [List.map_cons, List.sum_cons] at *
      rw [hsum]

theorem groupMerges_join : ∀ vs : List Nat, (groupMerges vs).flatten = vs := by
  refine twoStepInd _ ?_ ?_ ?_
  · rfl
  · intro a; rfl
  · intro a b t ht hbt
    show (groupMerges (a :: b :: t)).flatten = _
    rw [groupMerges]
    by_cases hab : a = b
    · rw [if_pos hab]
      simp only [List.flatten, List.cons_append]
      rw [ht]
      simp
    · rw [if_neg hab]
      simp only [List.flatten, List.cons_append]
      rw [hbt]
      simp

theorem groupMerges_collapse : ∀ vs : List Nat,
    mergePairs vs = (groupMerges vs).map collapseGroup := by
  refine twoStepInd _ ?_ ?_ ?_
  · rfl
  · intro a; rfl
  · intro a b t ht hbt
    rw [mergePairs_cons_cons]
    show _ = (groupMerges (a :: b :: t)).map collapseGroup
    rw [groupMerges]
    by_cases hab : a = b
    · rw [if_pos hab, if_pos hab]
      simp only [List.map_cons]
      rw [ht]
      rfl
    · rw [if_neg hab, if_neg hab]
      simp only [List.map_cons]
      rw [hbt]
      rfl

theorem groupMerges_scores : ∀ vs : List Nat,
    mergeScores vs = (groupMerges vs).filterMap groupScore := by
  refine twoStepInd _ ?_ ?_ ?_
  · rfl
  · intro a; rfl
  · intro a b t ht hbt
    rw [mergeScores_cons_cons]
    show _ = ((groupMerges (a :: b :: t)).filterMap groupScore)
    rw [groupMerges]
    by_cases hab : a = b
    · rw [if_pos hab, if_pos hab]
      rw [List.filterMap_cons]
      show pow2_32 (a + 1) :: mergeScores t = pow2_32 (a + 1) :: (groupMerges t).filterMap groupScore
      rw [ht]
    · rw [if_neg hab, if_neg hab]
      rw [List.filterMap_cons]
      show mergeScores (b :: t) = (groupMerges (b :: t)).filterMap groupScore
      exact hbt

theorem getD_set_ne (l : List Nat) (i q x : Nat) (h : i ≠ q) :
    (l.set i x).getD q 0 = l.getD q 0 := by
  induction l generalizing i q with
  | nil => simp
  | cons a t ih =>
    cases i with
    | zero =>
      cases q with
      | zero => omega
      | succ j => rfl
    | succ m =>
      cases q with
      | zero => rfl
      | succ j =>
        simp only [List.set_cons_succ, List.getD_cons_succ]
        exact ih m j (by omega)

theorem getD_set_self (l : List Nat) (i x : Nat) (h : i < l.length) :
    (l.set i x).getD i 0 = x := by
  induction l generalizing i with
  | nil => simp at h
  | cons a t ih =>
    cases i with
    | zero => rfl
    | succ m =>
      simp only [List.set_cons_succ, List.getD_cons_succ]
      exact ih m (by simpa using h)

theorem groupMerges_shape : ∀ vs : List Nat,
    ∀ g ∈ groupMerges vs, (∃ a, g = [a]) ∨ ∃ a, g = [a, a] := by
  refine twoStepInd _ ?_ ?_ ?_
  · simp [groupMerges]
  · intro a g hg
    simp only [groupMerges, List.mem_singleton] at hg
    exact Or.inl ⟨a, hg⟩
  · intro a b t ht hbt g hg
    rw [groupMerges] at hg
    by_cases hab : a = b
    · rw [if_pos hab] at hg
      rcases List.mem_cons.mp hg with h | h
      · exact Or.inr ⟨a, by rw [h, hab]⟩
      · exact ht g h
    · rw [if_neg hab] at hg
      rcases List.mem_cons.mp hg with h | h
      · exact Or.inl ⟨a, h⟩
      · exact hbt g h

theorem foldl_skip_zero {σ : Type} (f : σ → Nat → σ) (hf : ∀ s, f s 0 = s) :
    ∀ (l : List Nat) (s : σ), l.foldl f s = (l.filter (· ≠ 0)).foldl f s := by
  intro l
  induction l with
  | nil => intro s; rfl
  | cons v t ih =>
    intro s
    by_cases hv : v = 0
    · subst hv
      simp only [List.foldl_cons, hf]
      rw [ih s]
      simp
    · simp only [List.foldl_cons]
      rw [ih (f s v), List.filter_cons_of_pos (by simp [hv]), List.foldl_cons]

theorem mergeFromR_nil (rp : List Nat) (blocked : Bool) :
    mergeFromR rp blocked [] = (rp, []) := by
  cases rp <;> rfl

theorem mergeFromR_start (blocked : Bool) (v : Nat) (rest : List Nat) :
    mergeFromR [] blocked (v :: rest) = mergeFromR [v] false rest := by
  cases blocked <;> rfl

theorem mergeFromR_step (a : Nat) (rp : List Nat) (blocked : Bool) (v : Nat) (rest : List Nat) :
    mergeFromR (a :: rp) blocked (v :: rest) =
      if a = v ∧ blocked = false then
        ((mergeFromR ((a + 1) :: rp) true rest).1,
         pow2_32 (a + 1) :: (mergeFromR ((a + 1) :: rp) true rest).2)
      else mergeFromR (v :: (a :: rp)) false rest := by
  cases blocked <;> simp [mergeFromR]

/-- Simulation of the way 0 loop body by the abstract merge machine.
rp lists the values already placed (most recent first); the concrete
new_line holds them at positions 0 .. rp.length - 1 followed by zeros;
the cursor equals rp.length; the flag at rp.length - 1 records blocked,
all flags from rp.length on are still zero. -/
theorem combL_sim : ∀ (rest : List Nat) (n : Nat) (rp : List Nat) (blocked : Bool)
    (flags : List Nat) (scores : List Int),
    (∀ v ∈ rest, v ≠ 0) →
    rp.length + rest.length ≤ n →
    flags.length = n →
    (∀ q, rp.length ≤ q → flags.getD q 0 = 0) →
    flags.getD (rp.length - 1) 0 = (if blocked then 1 else 0) →
    ∃ flags2,
      List.foldl combStepL
        ⟨rp.reverse ++ List.replicate (n - rp.length) 0, flags, rp.length, scores⟩ rest
      = ⟨(mergeFromR rp blocked rest).1.reverse ++
           List.replicate (n - (mergeFromR rp blocked rest).1.length) 0,
         flags2, (mergeFromR rp blocked rest).1.length,
         scores ++ (mergeFromR rp blocked rest).2⟩ := by
  intro rest
  induction rest with
  | nil =>
    intro n rp blocked flags scores _ _ _ _ _
    refine ⟨flags, ?_⟩
    rw [mergeFromR_nil]
    simp
  | cons v rest2 ih =>
    intro n rp blocked flags scores hnz hlen hfl hq hlast
    have hv : v ≠ 0 := hnz v (by simp)
    simp only [List.length_cons] at hlen
    cases rp with
    | nil =>
      simp only [List.length_nil, Nat.zero_add] at hlen
      simp only [List.reverse_nil, List.nil_append, List.length_nil, Nat.sub_zero,
        List.foldl_cons]
      have hstep : combStepL ⟨List.replicate n 0, flags, 0, scores⟩ v
          = ⟨[v].reverse ++ List.replicate (n - 1) 0, flags, 1, scores⟩ := by
        simp only [combStepL]
        rw [if_pos hv, if_pos trivial]
        have hset : (List.replicate n (0 : Nat)).set 0 v = v :: List.replicate (n - 1) 0 :=
          replicate_set_zero n v (by omega)
        simp [hset]
      rw [hstep, mergeFromR_start]
      have hres := ih n [v] false flags scores
        (fun x hx => hnz x (by simp [hx]))
        (by simp only [List.length_cons, List.length_nil]; omega)
        hfl
        (fun q hq2 => hq q (by simp only [List.length_cons, List.length_nil] at hq2 ⊢; omega))
        (by simpa using hq 0 (by simp))
      simpa using hres
    | cons a rp2 =>
      have hmem : ∀ x ∈ rest2, x ≠ 0 := fun x hx => hnz x (by simp [hx])
      simp only [List.length_cons] at hlen hq hlast ⊢
      have hw : ((a :: rp2).reverse ++ List.replicate (n - (rp2.length + 1)) 0).getD
          (rp2.length + 1 - 1) 0 = a := by
        rw [List.reverse_cons, getD_append_left _ _ _ (by simp)]
        have h1 : rp2.reverse.length = rp2.length + 1 - 1 := by simp
        rw [← h1]
        exact concat_getD rp2.reverse a
      have hflag : flags.getD (rp2.length + 1 - 1) 0 = (if blocked then 1 else 0) := hlast
      rw [List.foldl_cons, mergeFromR_step]
      by_cases hguard : a = v ∧ blocked = false
      · obtain ⟨hav, hbl⟩ := hguard
        rw [if_pos ⟨hav, hbl⟩]
        have hstep : combStepL ⟨(a :: rp2).reverse ++ List.replicate (n - (rp2.length + 1)) 0,
              flags, rp2.length + 1, scores⟩ v
            = ⟨((a + 1) :: rp2).reverse ++ List.replicate (n - (rp2.length + 1)) 0,
               flags.set (rp2.length + 1 - 1) 1, rp2.length + 1, scores ++ [pow2_32 (a + 1)]⟩ := by
          simp only [combStepL]
          rw [if_pos hv, if_neg (by omega)]
          simp only [hw]
          rw [if_pos ⟨hav, by rw [hflag, hbl]; rfl⟩]
          have hset : ((a :: rp2).reverse ++ List.replicate (n - (rp2.length + 1)) 0).set
              (rp2.length + 1 - 1) (a + 1)
              = ((a + 1) :: rp2).reverse ++ List.replicate (n - (rp2.length + 1)) 0 := by
            rw [List.reverse_cons, set_append_left _ _ _ _ (by simp)]
            have h1 : rp2.reverse.length ≤ rp2.length + 1 - 1 := by simp
            rw [set_append_right _ _ _ _ h1]
            simp
          rw [hset]
        rw [hstep]
        have hres := ih n ((a + 1) :: rp2) true (flags.set (rp2.length + 1 - 1) 1)
          (scores ++ [pow2_32 (a + 1)]) hmem
          (by simp only [List.length_cons]; omega)
          (by rw [List.length_set]; exact hfl)
          (fun q hq2 => by
            simp only [List.length_cons] at hq2
            rw [getD_set_ne _ _ _ _ (by omega)]
            exact hq q (by omega))
          (by
            simp only [List.length_cons]
            rw [getD_set_self _ _ _ (by rw [hfl]; omega)]
            rfl)
        simp only [List.length_cons] at hres
        obtain ⟨flags2, hres⟩ := hres
        refine ⟨flags2, ?_⟩
        rw [hres]
        simp
      · rw [if_neg hguard]
        have hnb : ¬(a = v ∧ flags.getD (rp2.length + 1 - 1) 0 = 0) := by
          intro hcon
          obtain ⟨h1, h2⟩ := hcon
          rw [hflag] at h2
          cases blocked with
          | false => exact hguard ⟨h1, rfl⟩
          | true => simp at h2
        have hstep : combStepL ⟨(a :: rp2).reverse ++ List.replicate (n - (rp2.length + 1)) 0,
              flags, rp2.length + 1, scores⟩ v
            = ⟨(v :: a :: rp2).reverse ++ List.replicate (n - (rp2.length + 1 + 1)) 0,
               flags, rp2.length + 1 + 1, scores⟩ := by
          simp only [combStepL]
          rw [if_pos hv, if_neg (by omega)]
          simp only [hw]
          rw [if_neg hnb]
          have hset : ((a :: rp2).reverse ++ List.replicate (n - (rp2.length + 1)) 0).set
              (rp2.length + 1) v
              = (v :: a :: rp2).reverse ++ List.replicate (n - (rp2.length + 1 + 1)) 0 := by
            rw [set_append_right _ _ _ _ (by simp)]
            have h1 : rp2.length + 1 - (a :: rp2).reverse.length = 0 := by simp
            rw [h1, replicate_set_zero _ _ (by omega)]
            simp only [List.reverse_cons]
            rw [show n - (rp2.length + 1) - 1 = n - (rp2.length + 1 + 1) by omega]
            simp
          rw [hset]
        rw [hstep]
        have hres := ih n (v :: a :: rp2) false flags scores hmem
          (by simp only [List.length_cons]; omega)
          hfl
          (fun q hq2 => by
            simp only [List.length_cons] at hq2
            exact hq q (by omega))
          (by
            simp only [List.length_cons]
            exact hq (rp2.length + 1) (by omega))
        simp only [List.length_cons] at hres
        exact hres

/-- Simulation of the way 1 loop body by the same abstract machine.
The concrete new_line holds the placed values (most recent first) at its
tail, preceded by zeros; the cursor equals n - 1 - rp.length. -/
theorem combR_sim : ∀ (rest : List Nat) (n : Nat) (rp : List Nat) (blocked : Bool)
    (flags : List Nat) (scores : List Int),
    (∀ v ∈ rest, v ≠ 0) →
    rp.length + rest.length ≤ n →
    flags.length = n →
    (∀ q, q < n - rp.length → flags.getD q 0 = 0) →
    flags.getD (n - rp.length) 0 = (if blocked then 1 else 0) →
    ∃ flags2,
      List.foldl (combStepR n)
        ⟨List.replicate (n - rp.length) 0 ++ rp, flags, n - 1 - rp.length, scores⟩ rest
      = ⟨List.replicate (n - (mergeFromR rp blocked rest).1.length) 0 ++
           (mergeFromR rp blocked rest).1,
         flags2, n - 1 - (mergeFromR rp blocked rest).1.length,
         scores ++ (mergeFromR rp blocked rest).2⟩ := by
  intro rest
  induction rest with
  | nil =>
    intro n rp blocked flags scores _ _ _ _ _
    refine ⟨flags, ?_⟩
    rw [mergeFromR_nil]
    simp
  | cons v rest2 ih =>
    intro n rp blocked flags scores hnz hlen hfl hq hlast
    have hv : v ≠ 0 := hnz v (by simp)
    simp only [List.length_cons] at hlen
    cases rp with
    | nil =>
      simp only [List.length_nil, Nat.zero_add] at hlen
      simp only [List.length_nil, Nat.sub_zero] at hq hlast
      have hn1 : 1 ≤ n := by omega
      simp only [List.append_nil, List.length_nil, Nat.sub_zero, List.foldl_cons]
      have hstep : combStepR n ⟨List.replicate n 0, flags, n - 1, scores⟩ v
          = ⟨List.replicate (n - 1) 0 ++ [v], flags, n - 1 - 1, scores⟩ := by
        simp only [combStepR]
        rw [if_pos hv, if_pos trivial]
        have hset : (List.replicate n (0 : Nat)).set (n - 1) v
            = List.replicate (n - 1) 0 ++ [v] := replicate_set_last n v (by omega)
        simp [hset]
      rw [hstep, mergeFromR_start]
      have hres := ih n [v] false flags scores
        (fun x hx => hnz x (by simp [hx]))
        (by simp only [List.length_cons, List.length_nil]; omega)
        hfl
        (fun q hq2 => hq q (by simp only [List.length_cons, List.length_nil] at hq2 ⊢; omega))
        (by
          simp only [List.length_cons, List.length_nil]
          exact hq (n - 1) (by omega))
      simpa using hres
    | cons a rp2 =>
      have hmem : ∀ x ∈ rest2, x ≠ 0 := fun x hx => hnz x (by simp [hx])
      simp only [List.length_cons] at hlen hq hlast ⊢
      have hp1 : rp2.length + 1 + 1 ≤ n := by omega
      have hcur : n - 1 - (rp2.length + 1) + 1 = n - (rp2.length + 1) := by omega
      have hw : (List.replicate (n - (rp2.length + 1)) 0 ++ (a :: rp2)).getD
          (n - (rp2.length + 1)) 0 = a := by
        rw [getD_append_right _ _ _ (by simp)]
        simp
      have hflag : flags.getD (n - (rp2.length + 1)) 0 = (if blocked then 1 else 0) := hlast
      rw [List.foldl_cons, mergeFromR_step]
      by_cases hguard : a = v ∧ blocked = false
      · obtain ⟨hav, hbl⟩ := hguard
        rw [if_pos ⟨hav, hbl⟩]
        have hstep : combStepR n ⟨List.replicate (n - (rp2.length + 1)) 0 ++ (a :: rp2),
              flags, n - 1 - (rp2.length + 1), scores⟩ v
            = ⟨List.replicate (n - (rp2.length + 1)) 0 ++ ((a + 1) :: rp2),
               flags.set (n - (rp2.length + 1)) 1, n - 1 - (rp2.length + 1),
               scores ++ [pow2_32 (a + 1)]⟩ := by
          simp only [combStepR]
          rw [if_pos hv, if_neg (by omega)]
          simp only [hcur, hw]
          rw [if_pos ⟨hav, by rw [hflag, hbl]; rfl⟩]
          have hset : (List.replicate (n - (rp2.length + 1)) 0 ++ (a :: rp2)).set
              (n - (rp2.length + 1)) (a + 1)
              = List.replicate (n - (rp2.length + 1)) 0 ++ ((a + 1) :: rp2) := by
            rw [set_append_right _ _ _ _ (by simp)]
            simp
          rw [hset]
        rw [hstep]
        have hres := ih n ((a + 1) :: rp2) true (flags.set (n - (rp2.length + 1)) 1)
          (scores ++ [pow2_32 (a + 1)]) hmem
          (by simp only [List.length_cons]; omega)
          (by rw [List.length_set]; exact hfl)
          (fun q hq2 => by
            simp only [List.length_cons] at hq2
            rw [getD_set_ne _ _ _ _ (by omega)]
            exact hq q (by omega))
          (by
            simp only [List.length_cons]
            rw [getD_set_self _ _ _ (by rw [hfl]; omega)]
            rfl)
        simp only [List.length_cons] at hres
        obtain ⟨flags2, hres⟩ := hres
        refine ⟨flags2, ?_⟩
        rw [hres]
        simp
      · rw [if_neg hguard]
        have hnb : ¬(a = v ∧ flags.getD (n - (rp2.length + 1)) 0 = 0) := by
          intro hcon
          obtain ⟨h1, h2⟩ := hcon
          rw [hflag] at h2
          cases blocked with
          | false => exact hguard ⟨h1, rfl⟩
          | true => simp at h2
        have hstep : combStepR n ⟨List.replicate (n - (rp2.length + 1)) 0 ++ (a :: rp2),
              flags, n - 1 - (rp2.length + 1), scores⟩ v
            = ⟨List.replicate (n - (rp2.length + 1 + 1)) 0 ++ (v :: a :: rp2),
               flags, n - 1 - (rp2.length + 1 + 1), scores⟩ := by
          simp only [combStepR]
          rw [if_pos hv, if_neg (by omega)]
          simp only [hcur, hw]
          rw [if_neg hnb]
          have hset : (List.replicate (n - (rp2.length + 1)) 0 ++ (a :: rp2)).set
              (n - 1 - (rp2.length + 1)) v
              = List.replicate (n - (rp2.length + 1 + 1)) 0 ++ (v :: a :: rp2) := by
            rw [set_append_left _ _ _ _ (by simp; omega)]
            have h1 : n - 1 - (rp2.length + 1) = (n - (rp2.length + 1)) - 1 := by omega
            rw [h1, replicate_set_last _ _ (by omega)]
            rw [show n - (rp2.length + 1) - 1 = n - (rp2.length + 1 + 1) by omega]
            simp
          rw [hset]
          have h2 : n - 1 - (rp2.length + 1) - 1 = n - 1 - (rp2.length + 1 + 1) := by omega
          rw [h2]
        rw [hstep]
        have hres := ih n (v :: a :: rp2) false flags scores hmem
          (by simp only [List.length_cons]; omega)
          hfl
          (fun q hq2 => by
            simp only [List.length_cons] at hq2
            exact hq q (by omega))
          (by
            simp only [List.length_cons]
            exact hq (n - (rp2.length + 1 + 1)) (by omega))
        simp only [List.length_cons] at hres
        exact hres

theorem combStepL_zero (s : CombSt) : combStepL s 0 = s := by
  simp [combStepL]

theorem combStepR_zero (n : Nat) (s : CombSt) : combStepR n s 0 = s := by
  simp [combStepR]

theorem combinerL_char (n : Nat) (line : List Nat) (h : line.length ≤ n) :
    (combinerL n line).newLine = padRight n (mergePairs (line.filter (· ≠ 0))) ∧
    (combinerL n line).scores = mergeScores (line.filter (· ≠ 0)) ∧
    (combinerL n line).cur = (mergePairs (line.filter (· ≠ 0))).length := by
  unfold combinerL
  rw [foldl_skip_zero combStepL combStepL_zero line]
  have hsim := combL_sim (line.filter (· ≠ 0)) n [] false (List.replicate n 0) []
    (fun v hv => by simpa using (List.mem_filter.mp hv).2)
    (by
      simp only [List.length_nil, Nat.zero_add]
      exact Nat.le_trans (List.length_filter_le _ _) h)
    (by simp)
    (fun q _ => getD_replicate_zero n q)
    (by simp [getD_replicate_zero])
  obtain ⟨flags2, hsim⟩ := hsim
  simp only [List.reverse_nil, List.nil_append, List.length_nil, Nat.sub_zero] at hsim
  rw [mergeFromR_run] at hsim
  rw [hsim]
  refine ⟨?_, by simp, by simp⟩
  simp [padRight]

theorem combinerR_char (n : Nat) (line : List Nat) (h : line.length ≤ n) :
    (combinerR n line).newLine =
      List.replicate (n - (mergePairs (line.reverse.filter (· ≠ 0))).length) 0 ++
        (mergePairs (line.reverse.filter (· ≠ 0))).reverse ∧
    (combinerR n line).scores = mergeScores (line.reverse.filter (· ≠ 0)) := by
  unfold combinerR
  rw [foldl_skip_zero (combStepR n) (combStepR_zero n) line.reverse]
  have hsim := combR_sim (line.reverse.filter (· ≠ 0)) n [] false (List.replicate n 0) []
    (fun v hv => by simpa using (List.mem_filter.mp hv).2)
    (by
      simp only [List.length_nil, Nat.zero_add]
      exact Nat.le_trans (List.length_filter_le _ _) (by simpa using h))
    (by simp)
    (fun q _ => getD_replicate_zero n q)
    (by simp [getD_replicate_zero])
  obtain ⟨flags2, hsim⟩ := hsim
  simp only [List.append_nil, List.length_nil, Nat.sub_zero] at hsim
  rw [mergeFromR_run] at hsim
  rw [hsim]
  refine ⟨by simp, by simp⟩

theorem combinerL_newLine_length (n : Nat) (line : List Nat) (h : line.length ≤ n) :
    (combinerL n line).newLine.length = n := by
  rw [(combinerL_char n line h).1]
  have h1 : (mergePairs (line.filter (· ≠ 0))).length ≤ n :=
    Nat.le_trans (length_mergePairs_le _) (Nat.le_trans (List.length_filter_le _ _) h)
  simp only [padRight, List.length_append, List.length_replicate]
  omega

theorem combinerR_newLine_length (n : Nat) (line : List Nat) (h : line.length ≤ n) :
    (combinerR n line).newLine.length = n := by
  rw [(combinerR_char n line h).1]
  have h1 : (mergePairs (line.reverse.filter (· ≠ 0))).length ≤ n :=
    Nat.le_trans (length_mergePairs_le _)
      (Nat.le_trans (List.length_filter_le _ _) (by simpa using h))
  simp only [List.length_append, List.length_replicate, List.length_reverse]
  omega

theorem pairAdj_nil : ¬ pairAdj [] := fun h => h

theorem pairAdj_single (a : Nat) : ¬ pairAdj [a] := fun h => h

theorem pairAdj_cons_cons (x y : Nat) (t : List Nat) :
    pairAdj (x :: y :: t) ↔ x = y ∨ pairAdj (y :: t) := Iff.rfl

theorem litPair_cons_cons (x y : Nat) (t : List Nat) :
    litPair (x :: y :: t) ↔ (x ≠ 0 ∧ x = y) ∨ litPair (y :: t) := Iff.rfl

theorem gap_cons (x : Nat) (t : List Nat) :
    gap (x :: t) ↔ (x = 0 ∧ ∃ y ∈ t, y ≠ 0) ∨ gap t := Iff.rfl

theorem pairAdj_cons_of (y : Nat) (X : List Nat) (h : pairAdj X) : pairAdj (y :: X) := by
  cases X with
  | nil => exact absurd h pairAdj_nil
  | cons z X2 => exact Or.inr h

theorem litPair_cons_of (y : Nat) (t : List Nat) (h : litPair t) : litPair (y :: t) := by
  cases t with
  | nil => exact absurd h (fun hh => hh)
  | cons z t2 =>
    cases t2 with
    | nil => exact absurd h (fun hh => hh)
    | cons w t3 => exact Or.inr h

theorem gap_exists_nonzero : ∀ l : List Nat, gap l → ∃ y ∈ l, y ≠ 0 := by
  intro l
  induction l with
  | nil => intro h; exact absurd h (fun hh => hh)
  | cons x t ih =>
    intro h
    rcases h with ⟨_, y, hy, hyne⟩ | h
    · exact ⟨y, by simp [hy], hyne⟩
    · obtain ⟨y, hy, hyne⟩ := ih h
      exact ⟨y, by simp [hy], hyne⟩

theorem mergePairs_length_lt : ∀ vs : List Nat, pairAdj vs → (mergePairs vs).length < vs.length := by
  refine twoStepInd _ ?_ ?_ ?_
  · intro h; exact absurd h pairAdj_nil
  · intro a h; exact absurd h (pairAdj_single a)
  · intro a b t ht hbt h
    rw [mergePairs_cons_cons]
    by_cases hab : a = b
    · rw [if_pos hab]
      have := length_mergePairs_le t
      simp only [List.length_cons]
      omega
    · rw [if_neg hab]
      rcases h with h | h
      · exact absurd h hab
      · have := hbt h
        simp only [List.length_cons] at this ⊢
        omega

theorem mergePairs_eq_of_not : ∀ vs : List Nat, ¬ pairAdj vs → mergePairs vs = vs := by
  refine twoStepInd _ ?_ ?_ ?_
  · intro _; rfl
  · intro a _; rfl
  · intro a b t ht hbt h
    rw [mergePairs_cons_cons]
    have hab : a ≠ b := fun he => h (Or.inl he)
    rw [if_neg hab]
    rw [hbt (fun hp => h (Or.inr hp))]

theorem mergePairs_eq_iff (vs : List Nat) : mergePairs vs = vs ↔ ¬ pairAdj vs := by
  constructor
  · intro he hp
    have := mergePairs_length_lt vs hp
    rw [he] at this
    omega
  · exact mergePairs_eq_of_not vs

theorem filter_replicate_zero (k : Nat) :
    (List.replicate k (0 : Nat)).filter (· ≠ 0) = [] := by
  induction k with
  | zero => rfl
  | succ m ih => simpa [List.replicate_succ] using ih

/-- A line is unchanged by compaction toward the front exactly when it
has no empty cell strictly before an occupied cell. -/
theorem pad_filter_eq_iff : ∀ l : List Nat,
    padRight l.length (l.filter (· ≠ 0)) = l ↔ ¬ gap l := by
  intro l
  induction l with
  | nil => simp [padRight, gap]
  | cons x t ih =>
    by_cases hx : x = 0
    · subst hx
      rw [gap_cons]
      simp only [eq_self_iff_true, true_and]
      by_cases hnz : ∃ y ∈ t, y ≠ 0
      · constructor
        · intro he
          exfalso
          obtain ⟨y, hy, hyne⟩ := hnz
          have hfne : t.filter (· ≠ 0) ≠ [] := by
            intro hnil
            have h0 := List.filter_eq_nil_iff.mp hnil y hy
            simp at h0
            exact hyne h0
          rw [show (0 :: t).filter (· ≠ 0) = t.filter (· ≠ 0) by simp] at he
          cases hft : t.filter (· ≠ 0) with
          | nil => exact hfne hft
          | cons z w =>
            rw [hft] at he
            have hz : z ≠ 0 := by
              have hmem : z ∈ t.filter (· ≠ 0) := by rw [hft]; simp
              simpa using (List.mem_filter.mp hmem).2
            have : z = 0 := by
              have := congrArg (fun u => u.headD 1) he
              simpa [padRight] using this
            exact hz this
        · intro hcon
          exact absurd (Or.inl hnz) hcon
      · push_neg at hnz
        have hall : ∀ y ∈ t, y = 0 := hnz
        have hft : t.filter (· ≠ 0) = [] := by
          rw [List.filter_eq_nil_iff]
          intro a ha
          simpa using hall a ha
        have htz : t = List.replicate t.length 0 := by
          apply List.eq_replicate_of_mem
          intro b hb
          exact hall b hb
        have hng : ¬ gap t := by
          intro hg
          obtain ⟨y, hy, hyne⟩ := gap_exists_nonzero t hg
          exact hyne (hall y hy)
        constructor
        · intro _
          intro hcon
          rcases hcon with hex | hg
          · obtain ⟨y, hy, hyne⟩ := hex
            exact hyne (hall y hy)
          · exact hng hg
        · intro _
          rw [show (0 :: t).filter (· ≠ 0) = t.filter (· ≠ 0) by simp, hft]
          simp only [padRight, List.length_cons, List.nil_append, List.length_nil, Nat.sub_zero]
          rw [List.replicate_succ]
          rw [htz]
          simp
    · rw [show (x :: t).filter (· ≠ 0) = x :: t.filter (· ≠ 0) by simp [hx]]
      rw [gap_cons]
      have hlhs : padRight (x :: t).length (x :: t.filter (· ≠ 0)) =
          x :: padRight t.length (t.filter (· ≠ 0)) := by
        have harith : (x :: t).length - (x :: t.filter (· ≠ 0)).length
            = t.length - (t.filter (· ≠ 0)).length := by
          simp only [List.length_cons]
          omega
        simp only [padRight, harith, List.cons_append]
      rw [hlhs]
      constructor
      · intro he hcon
        have ht : padRight t.length (t.filter (· ≠ 0)) = t := by
          injection he
        rcases hcon with ⟨hx0, _⟩ | hg
        · exact hx hx0
        · exact (ih.mp ht) hg
      · intro hng
        have : ¬ gap t := fun hg => hng (Or.inr hg)
        rw [ih.mpr this]

theorem litPair_filter : ∀ l : List Nat, litPair l → pairAdj (l.filter (· ≠ 0)) := by
  refine twoStepInd _ ?_ ?_ ?_
  · intro h; exact h.elim
  · intro a h; exact h.elim
  · intro a b t ht hbt h
    rcases (litPair_cons_cons a b t).mp h with ⟨ha0, hab⟩ | h2
    · have hb0 : b ≠ 0 := hab ▸ ha0
      rw [show (a :: b :: t).filter (· ≠ 0) = a :: b :: t.filter (· ≠ 0) by simp [ha0, hb0]]
      exact Or.inl hab
    · have hrec := hbt h2
      by_cases ha : a = 0
      · rw [show (a :: b :: t).filter (· ≠ 0) = (b :: t).filter (· ≠ 0) by simp [ha]]
        exact hrec
      · rw [show (a :: b :: t).filter (· ≠ 0) = a :: (b :: t).filter (· ≠ 0) by simp [ha]]
        exact pairAdj_cons_of a _ hrec

theorem pairAdj_filter : ∀ l : List Nat, pairAdj (l.filter (· ≠ 0)) → litPair l ∨ gap l := by
  intro l
  induction l with
  | nil => intro h; exact h.elim
  | cons x t ih =>
    intro h
    by_cases hx : x = 0
    · rw [show (x :: t).filter (· ≠ 0) = t.filter (· ≠ 0) by simp [hx]] at h
      rcases ih h with h2 | h2
      · exact Or.inl (litPair_cons_of x t h2)
      · exact Or.inr (Or.inr h2)
    · rw [show (x :: t).filter (· ≠ 0) = x :: t.filter (· ≠ 0) by simp [hx]] at h
      cases hft : t.filter (· ≠ 0) with
      | nil =>
        rw [hft] at h
        exact absurd h (pairAdj_single x)
      | cons z w =>
        rw [hft] at h
        rcases h with hxz | h2
        · have hzmem : z ∈ t.filter (· ≠ 0) := by rw [hft]; simp
          have hz0 : z ≠ 0 := by simpa using (List.mem_filter.mp hzmem).2
          cases t with
          | nil => simp at hft
          | cons c t2 =>
            by_cases hc : c = 0
            · have hft2 : t2.filter (· ≠ 0) = z :: w := by
                rw [← hft]; simp [hc]
              have hz2 : z ∈ t2 := by
                have : z ∈ t2.filter (· ≠ 0) := by rw [hft2]; simp
                exact (List.mem_filter.mp this).1
              exact Or.inr (Or.inr (Or.inl ⟨hc, z, hz2, hz0⟩))
            · have : (c :: t2).filter (· ≠ 0) = c :: t2.filter (· ≠ 0) := by simp [hc]
              rw [this] at hft
              have hcz : c = z := (List.cons.injEq _ _ _ _ ▸ hft).1
              exact Or.inl (Or.inl ⟨hx, hxz.trans hcz.symm⟩)
        · rw [← hft] at h2
          rcases ih h2 with h3 | h3
          · exact Or.inl (litPair_cons_of x t h3)
          · exact Or.inr (Or.inr h3)

/-- Core characterization: the compacted and merged line equals the
original exactly when the line has no adjacent equal nonzero pair and no
empty cell before an occupied cell. -/
theorem pad_merge_eq_iff (l : List Nat) :
    padRight l.length (mergePairs (l.filter (· ≠ 0))) = l ↔ ¬ litPair l ∧ ¬ gap l := by
  have hflnz : ∀ v ∈ l.filter (· ≠ 0), v ≠ 0 := by
    intro v hv
    simpa using (List.mem_filter.mp hv).2
  have hmpnz : ∀ x ∈ mergePairs (l.filter (· ≠ 0)), x ≠ 0 :=
    mergePairs_ne_zero _ hflnz
  constructor
  · intro he
    have hfl2 : l.filter (· ≠ 0) = mergePairs (l.filter (· ≠ 0)) := by
      conv_lhs => rw [← he]
      rw [padRight, List.filter_append, filter_replicate_zero, List.append_nil]
      rw [List.filter_eq_self.mpr (fun a ha => by simpa using hmpnz a ha)]
    have hnp : ¬ pairAdj (l.filter (· ≠ 0)) := (mergePairs_eq_iff _).mp hfl2.symm
    have hpad : padRight l.length (l.filter (· ≠ 0)) = l := by
      rw [hfl2]; exact he
    refine ⟨fun hlp => hnp (litPair_filter l hlp), (pad_filter_eq_iff l).mp hpad⟩
  · rintro ⟨hnl, hng⟩
    have hnp : ¬ pairAdj (l.filter (· ≠ 0)) := by
      intro hp
      rcases pairAdj_filter l hp with h | h
      · exact hnl h
      · exact hng h
    rw [mergePairs_eq_of_not _ hnp]
    exact (pad_filter_eq_iff l).mpr hng

theorem getD_reverse : ∀ (l : List Nat) (i : Nat), i < l.length →
    l.reverse.getD i 0 = l.getD (l.length - 1 - i) 0 := by
  intro l
  induction l with
  | nil => intro i h; simp at h
  | cons a t ih =>
    intro i h
    simp only [List.length_cons] at h
    rw [List.reverse_cons]
    by_cases hi : i < t.length
    · rw [getD_append_left _ _ _ (by simpa using hi), ih i hi]
      have e1 : t.length + 1 - 1 - i = (t.length - 1 - i) + 1 := by omega
      rw [List.length_cons, e1, List.getD_cons_succ]
    · have hieq : i = t.length := by omega
      subst hieq
      rw [getD_append_right _ _ _ (by simp), List.length_cons]
      simp

theorem pairAdj_iff : ∀ l : List Nat,
    pairAdj l ↔ ∃ i, i + 1 < l.length ∧ l.getD i 0 = l.getD (i + 1) 0 := by
  intro l
  induction l with
  | nil =>
    exact ⟨fun h => h.elim, fun ⟨i, hi, _⟩ => absurd hi (by simp)⟩
  | cons x t ih =>
    cases t with
    | nil =>
      exact ⟨fun h => h.elim, fun ⟨i, hi, _⟩ => absurd hi (by simp)⟩
    | cons y t2 =>
      constructor
      · intro h
        rcases h with hxy | h2
        · exact ⟨0, by simp, by simpa using hxy⟩
        · obtain ⟨i, hi, he⟩ := ih.mp h2
          refine ⟨i + 1, by simp only [List.length_cons] at hi ⊢; omega, ?_⟩
          simpa [List.getD_cons_succ] using he
      · rintro ⟨i, hi, he⟩
        cases i with
        | zero => exact Or.inl (by simpa using he)
        | succ j =>
          refine Or.inr (ih.mpr ⟨j, ?_, ?_⟩)
          · simp only [List.length_cons] at hi ⊢; omega
          · simpa [List.getD_cons_succ] using he

theorem litPair_iff : ∀ l : List Nat,
    litPair l ↔ ∃ i, i + 1 < l.length ∧ l.getD i 0 ≠ 0 ∧ l.getD i 0 = l.getD (i + 1) 0 := by
  intro l
  induction l with
  | nil =>
    exact ⟨fun h => h.elim, fun ⟨i, hi, _⟩ => absurd hi (by simp)⟩
  | cons x t ih =>
    cases t with
    | nil =>
      exact ⟨fun h => h.elim, fun ⟨i, hi, _⟩ => absurd hi (by simp)⟩
    | cons y t2 =>
      constructor
      · intro h
        rcases h with ⟨hx0, hxy⟩ | h2
        · exact ⟨0, by simp, by simpa using hx0, by simpa using hxy⟩
        · obtain ⟨i, hi, hne, he⟩ := ih.mp h2
          refine ⟨i + 1, by simp only [List.length_cons] at hi ⊢; omega, ?_, ?_⟩
          · simpa [List.getD_cons_succ] using hne
          · simpa [List.getD_cons_succ] using he
      · rintro ⟨i, hi, hne, he⟩
        cases i with
        | zero => exact Or.inl ⟨by simpa using hne, by simpa using he⟩
        | succ j =>
          refine Or.inr (ih.mpr ⟨j, ?_, ?_, ?_⟩)
          · simp only [List.length_cons] at hi ⊢; omega
          · simpa [List.getD_cons_succ] using hne
          · simpa [List.getD_cons_succ] using he

theorem exists_nonzero_getD (t : List Nat) :
    (∃ y ∈ t, y ≠ 0) ↔ ∃ j, j < t.length ∧ t.getD j 0 ≠ 0 := by
  constructor
  · rintro ⟨y, hy, hyne⟩
    obtain ⟨j, hj, hje⟩ := List.mem_iff_getElem.mp hy
    exact ⟨j, hj, by rw [List.getD_eq_getElem t 0 hj, hje]; exact hyne⟩
  · rintro ⟨j, hj, hne⟩
    rw [List.getD_eq_getElem t 0 hj] at hne
    exact ⟨t[j], List.getElem_mem hj, hne⟩

theorem gap_iff : ∀ l : List Nat,
    gap l ↔ ∃ i j, i < j ∧ j < l.length ∧ l.getD i 0 = 0 ∧ l.getD j 0 ≠ 0 := by
  intro l
  induction l with
  | nil =>
    exact ⟨fun h => h.elim, fun ⟨i, j, _, hj, _⟩ => absurd hj (by simp)⟩
  | cons x t ih =>
    constructor
    · intro h
      rcases h with ⟨hx0, hex⟩ | h2
      · obtain ⟨j, hj, hne⟩ := (exists_nonzero_getD t).mp hex
        refine ⟨0, j + 1, by omega, by simp only [List.length_cons]; omega, by simpa using hx0, ?_⟩
        simpa [List.getD_cons_succ] using hne
      · obtain ⟨i, j, hij, hj, h0, hne⟩ := ih.mp h2
        refine ⟨i + 1, j + 1, by omega, by simp only [List.length_cons]; omega, ?_, ?_⟩
        · simpa [List.getD_cons_succ] using h0
        · simpa [List.getD_cons_succ] using hne
    · rintro ⟨i, j, hij, hj, h0, hne⟩
      simp only [List.length_cons] at hj
      cases i with
      | zero =>
        refine Or.inl ⟨by simpa using h0, ?_⟩
        obtain ⟨m, hm⟩ : ∃ m, j = m + 1 := ⟨j - 1, by omega⟩
        subst hm
        refine (exists_nonzero_getD t).mpr ⟨m, by omega, ?_⟩
        simpa [List.getD_cons_succ] using hne
      | succ k =>
        obtain ⟨m, hm⟩ : ∃ m, j = m + 1 := ⟨j - 1, by omega⟩
        subst hm
        refine Or.inr (ih.mpr ⟨k, m, by omega, by omega, ?_, ?_⟩)
        · simpa [List.getD_cons_succ] using h0
        · simpa [List.getD_cons_succ] using hne

theorem pairAdj_reverse_mp : ∀ l : List Nat, pairAdj l.reverse → pairAdj l := by
  intro l h
  obtain ⟨i, hi, he⟩ := (pairAdj_iff l.reverse).mp h
  rw [List.length_reverse] at hi
  rw [getD_reverse l i (by omega), getD_reverse l (i + 1) (by omega)] at he
  refine (pairAdj_iff l).mpr ⟨l.length - 2 - i, by omega, ?_⟩
  rw [show l.length - 2 - i + 1 = l.length - 1 - i by omega]
  rw [show l.length - 1 - (i + 1) = l.length - 2 - i by omega] at he
  exact he.symm

theorem pairAdj_reverse (l : List Nat) : pairAdj l.reverse ↔ pairAdj l := by
  constructor
  · exact pairAdj_reverse_mp l
  · intro h
    have := pairAdj_reverse_mp l.reverse
    rw [List.reverse_reverse] at this
    exact this h

theorem litPair_reverse_mp : ∀ l : List Nat, litPair l.reverse → litPair l := by
  intro l h
  obtain ⟨i, hi, hne, he⟩ := (litPair_iff l.reverse).mp h
  rw [List.length_reverse] at hi
  rw [getD_reverse l i (by omega)] at hne he
  rw [getD_reverse l (i + 1) (by omega)] at he
  rw [show l.length - 1 - (i + 1) = l.length - 2 - i by omega] at he
  refine (litPair_iff l).mpr ⟨l.length - 2 - i, by omega, ?_, ?_⟩
  · rw [← he]; exact hne
  · rw [show l.length - 2 - i + 1 = l.length - 1 - i by omega]
    exact he.symm

theorem litPair_reverse (l : List Nat) : litPair l.reverse ↔ litPair l := by
  constructor
  · exact litPair_reverse_mp l
  · intro h
    have := litPair_reverse_mp l.reverse
    rw [List.reverse_reverse] at this
    exact this h

/-- The way 0 combiner leaves a line unchanged exactly when the line has
no adjacent equal nonzero pair and no empty cell left of an occupied
cell. -/
theorem combinerL_unchanged_iff (n : Nat) (l : List Nat) (h : l.length = n) :
    (combinerL n l).newLine = l ↔ ¬ litPair l ∧ ¬ gap l := by
  subst h
  rw [(combinerL_char l.length l (Nat.le_refl _)).1]
  exact pad_merge_eq_iff l

/-- The way 1 combiner leaves a line unchanged exactly when the line has
no adjacent equal nonzero pair and no empty cell right of an occupied
cell (a gap in the reversed line). -/
theorem combinerR_unchanged_iff (n : Nat) (l : List Nat) (h : l.length = n) :
    (combinerR n l).newLine = l ↔ ¬ litPair l ∧ ¬ gap l.reverse := by
  subst h
  rw [(combinerR_char l.length l (Nat.le_refl _)).1]
  have hiff : List.replicate (l.length - (mergePairs (l.reverse.filter (· ≠ 0))).length) 0 ++
        (mergePairs (l.reverse.filter (· ≠ 0))).reverse = l
      ↔ padRight l.reverse.length (mergePairs (l.reverse.filter (· ≠ 0))) = l.reverse := by
    rw [← List.reverse_inj]
    simp [padRight]
  rw [hiff, pad_merge_eq_iff l.reverse, litPair_reverse]

theorem rowOf_length {n : Nat} (b : Board n) (r : Fin n) : (rowOf b r).length = n := by
  simp [rowOf]

theorem colOf_length {n : Nat} (b : Board n) (c : Fin n) : (colOf b c).length = n := by
  simp [colOf]

theorem rowOf_getD {n : Nat} (b : Board n) (r : Fin n) (c : Fin n) :
    (rowOf b r).getD c.val 0 = b r c := by
  unfold rowOf
  rw [List.getD_eq_getElem _ 0 (by simp [c.isLt])]
  simp [List.getElem_finRange]

theorem colOf_getD {n : Nat} (b : Board n) (c : Fin n) (r : Fin n) :
    (colOf b c).getD r.val 0 = b r c := by
  unfold colOf
  rw [List.getD_eq_getElem _ 0 (by simp [r.isLt])]
  simp [List.getElem_finRange]

theorem rowOf_transpose {n : Nat} (b : Board n) (r : Fin n) :
    rowOf (transposeB b) r = colOf b r := rfl

theorem listEqOfGetD {n : Nat} (l m : List Nat) (hl : l.length = n) (hm : m.length = n)
    (h : ∀ c : Fin n, l.getD c.val 0 = m.getD c.val 0) : l = m := by
  apply List.ext_getElem (by omega)
  intro i h1 h2
  have h3 := h ⟨i, by omega⟩
  rwa [List.getD_eq_getElem l 0 h1, List.getD_eq_getElem m 0 h2] at h3

theorem npAny_iff {n : Nat} (v : Fin n → Bool) : npAny v = true ↔ ∃ r : Fin n, v r = true := by
  unfold npAny
  simp [List.any_eq_true]

theorem fire_iff {n : Nat} (checker l : Fin n → Bool) (r : Fin n) :
    ((xor (checker r) (l r)) && checker r) = true ↔ checker r = true ∧ l r = false := by
  cases hc : checker r <;> cases hl : l r <;> simp

/-- What the scanning loop of the slide check detects: some scanned line
has an empty position where the running or of the checker and all
earlier lines is occupied. -/
theorem slideScan_iff {n : Nat} : ∀ (ls : List (Fin n → Bool)) (checker : Fin n → Bool),
    slideScan ls checker = true ↔
      ∃ k, k < ls.length ∧ ∃ r : Fin n,
        (checker r = true ∨ ∃ m, m < k ∧ (ls.getD m default) r = true) ∧
        (ls.getD k default) r = false := by
  intro ls
  induction ls with
  | nil => intro checker; simp [slideScan]
  | cons l ls2 ih =>
    intro checker
    rw [show slideScan (l :: ls2) checker =
        (if npAny (fun r => (xor (checker r) (l r)) && checker r) then true
         else slideScan ls2 (fun r => checker r || l r)) from rfl]
    by_cases hfire : npAny (fun r => (xor (checker r) (l r)) && checker r) = true
    · rw [if_pos hfire]
      obtain ⟨r, hr⟩ := (npAny_iff _).mp hfire
      obtain ⟨hc, hl⟩ := (fire_iff checker l r).mp hr
      constructor
      · intro _
        exact ⟨0, by simp, r, Or.inl hc, by simpa using hl⟩
      · intro _; rfl
    · rw [if_neg hfire, ih]
      have hnofire : ∀ r : Fin n, ¬(checker r = true ∧ l r = false) := by
        intro r hcon
        exact hfire ((npAny_iff _).mpr ⟨r, (fire_iff checker l r).mpr hcon⟩)
      constructor
      · rintro ⟨k, hk, r, hpre, hcur⟩
        refine ⟨k + 1, by simp only [List.length_cons]; omega, r,
          ?_, by simpa [List.getD_cons_succ] using hcur⟩
        rcases hpre with hor | ⟨m, hm, hlsm⟩
        · rcases Bool.or_eq_true_iff.mp hor with hc | hl
          · exact Or.inl hc
          · exact Or.inr ⟨0, by omega, by simpa using hl⟩
        · exact Or.inr ⟨m + 1, by omega, by simpa [List.getD_cons_succ] using hlsm⟩
      · rintro ⟨k, hk, r, hpre, hcur⟩
        simp only [List.length_cons] at hk
        cases k with
        | zero =>
          exfalso
          rcases hpre with hc | ⟨m, hm, _⟩
          · exact hnofire r ⟨hc, by simpa using hcur⟩
          · omega
        | succ k2 =>
          refine ⟨k2, by omega, r, ?_, by simpa [List.getD_cons_succ] using hcur⟩
          rcases hpre with hc | ⟨m, hm, hlsm⟩
          · exact Or.inl (by simp [hc])
          · cases m with
            | zero =>
              refine Or.inl ?_
              have : l r = true := by simpa using hlsm
              simp [this]
            | succ m2 =>
              exact Or.inr ⟨m2, by omega, by simpa [List.getD_cons_succ] using hlsm⟩

theorem descIdx_length (n : Nat) : (descIdx n).length = n - 1 := by
  simp [descIdx]

theorem ascIdx_length (n : Nat) : (ascIdx n).length = n - 1 := by
  simp [ascIdx]

theorem descIdx_map_getD {n : Nat} (f : Fin n → (Fin n → Bool)) (k : Nat) (h : k < n - 1) :
    (((descIdx n).map f).getD k default) = f ⟨n - 2 - k, by omega⟩ := by
  have hlen : k < ((descIdx n).map f).length := by
    simp [descIdx_length]
    omega
  rw [List.getD_eq_getElem _ _ hlen, List.getElem_map]
  conv_lhs => unfold descIdx
  rw [List.getElem_reverse, List.getElem_dropLast]
  rw [List.getElem_finRange]
  exact congrArg f (Fin.ext (by simp; omega))

theorem ascIdx_map_getD {n : Nat} (f : Fin n → (Fin n → Bool)) (k : Nat) (h : k < n - 1) :
    (((ascIdx n).map f).getD k default) = f ⟨k + 1, by omega⟩ := by
  have hlen : k < ((ascIdx n).map f).length := by
    simp [ascIdx_length]
    omega
  rw [List.getD_eq_getElem _ _ hlen, List.getElem_map]
  conv_lhs => unfold ascIdx
  rw [List.getElem_drop]
  rw [List.getElem_finRange]
  exact congrArg f (Fin.ext (by simp; omega))

theorem gap_reverse_iff (l : List Nat) :
    gap l.reverse ↔ ∃ i j, i < j ∧ j < l.length ∧ l.getD i 0 ≠ 0 ∧ l.getD j 0 = 0 := by
  rw [gap_iff]
  constructor
  · rintro ⟨i, j, hij, hj, h0, hne⟩
    rw [List.length_reverse] at hj
    rw [getD_reverse l i (by omega)] at h0
    rw [getD_reverse l j (by omega)] at hne
    exact ⟨l.length - 1 - j, l.length - 1 - i, by omega, by omega, hne, h0⟩
  · rintro ⟨i, j, hij, hj, hne, h0⟩
    refine ⟨l.length - 1 - j, l.length - 1 - i, by omega,
      by rw [List.length_reverse]; omega, ?_, ?_⟩
    · rw [getD_reverse l _ (by omega)]
      rw [show l.length - 1 - (l.length - 1 - j) = j by omega]
      exact h0
    · rw [getD_reverse l _ (by omega)]
      rw [show l.length - 1 - (l.length - 1 - i) = i by omega]
      exact hne

theorem colOcc_true_iff {n : Nat} (b : Board n) (i : Fin n) (r : Fin n) :
    colOcc b i r = true ↔ b r i ≠ 0 := by
  simp [colOcc]

theorem colOcc_false_iff {n : Nat} (b : Board n) (i : Fin n) (r : Fin n) :
    colOcc b i r = false ↔ b r i = 0 := by
  simp [colOcc]

theorem check_if_same0_iff {n : Nat} (b : Board n) :
    check_if_same b 0 = true ↔ ∃ r : Fin n, litPair (rowOf b r) := by
  unfold check_if_same
  rw [if_pos rfl, List.any_eq_true]
  constructor
  · rintro ⟨r, _, hr⟩
    rw [List.any_eq_true] at hr
    obtain ⟨c, _, hc⟩ := hr
    by_cases h : c.val + 1 < n
    · rw [dif_pos h, Bool.and_eq_true] at hc
      obtain ⟨h1, h2⟩ := hc
      have hb0 : b r c ≠ 0 := by simpa using h1
      have hbe : b r c = b r ⟨c.val + 1, h⟩ := by simpa using h2
      refine ⟨r, (litPair_iff _).mpr ⟨c.val, ?_, ?_, ?_⟩⟩
      · rw [rowOf_length]; omega
      · rw [rowOf_getD b r c]; exact hb0
      · rw [rowOf_getD b r c,
          show c.val + 1 = (⟨c.val + 1, h⟩ : Fin n).val from rfl, rowOf_getD]
        exact hbe
    · rw [dif_neg h] at hc
      cases hc
  · rintro ⟨r, hlp⟩
    obtain ⟨i, hi, hne, he⟩ := (litPair_iff _).mp hlp
    rw [rowOf_length] at hi
    refine ⟨r, List.mem_finRange r, ?_⟩
    rw [List.any_eq_true]
    refine ⟨⟨i, by omega⟩, List.mem_finRange _, ?_⟩
    rw [dif_pos (show i + 1 < n from hi), Bool.and_eq_true]
    have hb1 : (rowOf b r).getD i 0 = b r ⟨i, by omega⟩ := rowOf_getD b r ⟨i, by omega⟩
    have hb2 : (rowOf b r).getD (i + 1) 0 = b r ⟨i + 1, hi⟩ := rowOf_getD b r ⟨i + 1, hi⟩
    rw [hb1] at hne
    rw [hb1, hb2] at he
    exact ⟨by simpa using hne, by simpa using he⟩

theorem check_legal0_iff {n : Nat} (b : Board n) :
    check_legal b 0 = true ↔ ∃ r : Fin n, gap (rowOf b r) := by
  unfold check_legal
  by_cases hn : n = 0
  · rw [dif_pos hn]
    constructor
    · intro h; cases h
    · rintro ⟨r, _⟩
      subst hn
      exact r.elim0
  · rw [dif_neg hn, if_pos rfl, slideScan_iff]
    constructor
    · rintro ⟨k, hk, r, hpre, hcur⟩
      rw [List.length_map, descIdx_length] at hk
      rw [descIdx_map_getD _ k hk] at hcur
      have hn2 : 2 ≤ n := by omega
      have hcur2 : b r ⟨n - 2 - k, by omega⟩ = 0 := (colOcc_false_iff b _ r).mp hcur
      refine ⟨r, (gap_iff _).mpr ?_⟩
      rcases hpre with hchk | ⟨m, hm, hlsm⟩
      · have hne : b r ⟨n - 1, by omega⟩ ≠ 0 := (colOcc_true_iff b _ r).mp hchk
        refine ⟨n - 2 - k, n - 1, by omega, by rw [rowOf_length]; omega, ?_, ?_⟩
        · rw [show n - 2 - k = (⟨n - 2 - k, by omega⟩ : Fin n).val from rfl, rowOf_getD]
          exact hcur2
        · rw [show n - 1 = (⟨n - 1, by omega⟩ : Fin n).val from rfl, rowOf_getD]
          exact hne
      · rw [descIdx_map_getD _ m (by omega)] at hlsm
        have hne : b r ⟨n - 2 - m, by omega⟩ ≠ 0 := (colOcc_true_iff b _ r).mp hlsm
        refine ⟨n - 2 - k, n - 2 - m, by omega, by rw [rowOf_length]; omega, ?_, ?_⟩
        · rw [show n - 2 - k = (⟨n - 2 - k, by omega⟩ : Fin n).val from rfl, rowOf_getD]
          exact hcur2
        · rw [show n - 2 - m = (⟨n - 2 - m, by omega⟩ : Fin n).val from rfl, rowOf_getD]
          exact hne
    · rintro ⟨r, hg⟩
      obtain ⟨i, j, hij, hj, h0, hne⟩ := (gap_iff _).mp hg
      rw [rowOf_length] at hj
      have hn2 : 2 ≤ n := by omega
      have h0b : b r ⟨i, by omega⟩ = 0 := by
        rw [show i = (⟨i, by omega⟩ : Fin n).val from rfl, rowOf_getD] at h0
        exact h0
      have hneb : b r ⟨j, by omega⟩ ≠ 0 := by
        rw [show j = (⟨j, by omega⟩ : Fin n).val from rfl, rowOf_getD] at hne
        exact hne
      refine ⟨n - 2 - i, by rw [List.length_map, descIdx_length]; omega, r, ?_, ?_⟩
      · by_cases hj1 : j = n - 1
        · refine Or.inl ((colOcc_true_iff b _ r).mpr ?_)
          have he : (⟨n - 1, by omega⟩ : Fin n) = ⟨j, by omega⟩ := Fin.ext (by simp; omega)
          rw [he]
          exact hneb
        · refine Or.inr ⟨n - 2 - j, by omega, ?_⟩
          rw [descIdx_map_getD _ _ (by omega)]
          refine (colOcc_true_iff b _ r).mpr ?_
          have he : (⟨n - 2 - (n - 2 - j), by omega⟩ : Fin n) = ⟨j, by omega⟩ :=
            Fin.ext (by simp; omega)
          rw [he]
          exact hneb
      · rw [descIdx_map_getD _ _ (by omega)]
        refine (colOcc_false_iff b _ r).mpr ?_
        have he : (⟨n - 2 - (n - 2 - i), by omega⟩ : Fin n) = ⟨i, by omega⟩ :=
          Fin.ext (by simp; omega)
        rw [he]
        exact h0b

theorem check_legal1_iff {n : Nat} (b : Board n) :
    check_legal b 1 = true ↔ ∃ r : Fin n, gap ((rowOf b r).reverse) := by
  unfold check_legal
  by_cases hn : n = 0
  · rw [dif_pos hn]
    constructor
    · intro h; cases h
    · rintro ⟨r, _⟩
      subst hn
      exact r.elim0
  · rw [dif_neg hn, if_neg (by omega), if_pos rfl, slideScan_iff]
    constructor
    · rintro ⟨k, hk, r, hpre, hcur⟩
      rw [List.length_map, ascIdx_length] at hk
      rw [ascIdx_map_getD _ k hk] at hcur
      have hn2 : 2 ≤ n := by omega
      have hcur2 : b r ⟨k + 1, by omega⟩ = 0 := (colOcc_false_iff b _ r).mp hcur
      refine ⟨r, (gap_reverse_iff _).mpr ?_⟩
      rcases hpre with hchk | ⟨m, hm, hlsm⟩
      · have hne : b r ⟨0, by omega⟩ ≠ 0 := (colOcc_true_iff b _ r).mp hchk
        refine ⟨0, k + 1, by omega, by rw [rowOf_length]; omega, ?_, ?_⟩
        · rw [show (0 : Nat) = (⟨0, by omega⟩ : Fin n).val from rfl, rowOf_getD]
          exact hne
        · rw [show k + 1 = (⟨k + 1, by omega⟩ : Fin n).val from rfl, rowOf_getD]
          exact hcur2
      · rw [ascIdx_map_getD _ m (by omega)] at hlsm
        have hne : b r ⟨m + 1, by omega⟩ ≠ 0 := (colOcc_true_iff b _ r).mp hlsm
        refine ⟨m + 1, k + 1, by omega, by rw [rowOf_length]; omega, ?_, ?_⟩
        · rw [show m + 1 = (⟨m + 1, by omega⟩ : Fin n).val from rfl, rowOf_getD]
          exact hne
        · rw [show k + 1 = (⟨k + 1, by omega⟩ : Fin n).val from rfl, rowOf_getD]
          exact hcur2
    · rintro ⟨r, hg⟩
      obtain ⟨i, j, hij, hj, hne, h0⟩ := (gap_reverse_iff _).mp hg
      rw [rowOf_length] at hj
      have hn2 : 2 ≤ n := by omega
      have h0b : b r ⟨j, by omega⟩ = 0 := by
        rw [show j = (⟨j, by omega⟩ : Fin n).val from rfl, rowOf_getD] at h0
        exact h0
      have hneb : b r ⟨i, by omega⟩ ≠ 0 := by
        rw [show i = (⟨i, by omega⟩ : Fin n).val from rfl, rowOf_getD] at hne
        exact hne
      refine ⟨j - 1, by rw [List.length_map, ascIdx_length]; omega, r, ?_, ?_⟩
      · by_cases hi0 : i = 0
        · refine Or.inl ((colOcc_true_iff b _ r).mpr ?_)
          have he : (⟨0, by omega⟩ : Fin n) = ⟨i, by omega⟩ := Fin.ext (by simp; omega)
          rw [he]
          exact hneb
        · refine Or.inr ⟨i - 1, by omega, ?_⟩
          rw [ascIdx_map_getD _ _ (by omega)]
          refine (colOcc_true_iff b _ r).mpr ?_
          have he : (⟨i - 1 + 1, by omega⟩ : Fin n) = ⟨i, by omega⟩ := Fin.ext (by simp; omega)
          rw [he]
          exact hneb
      · rw [ascIdx_map_getD _ _ (by omega)]
        refine (colOcc_false_iff b _ r).mpr ?_
        have he : (⟨j - 1 + 1, by omega⟩ : Fin n) = ⟨j, by omega⟩ := Fin.ext (by simp; omega)
        rw [he]
        exact h0b

theorem apply_move0_eq_iff {n : Nat} (b : Board n) :
    apply_move b 0 = b ↔ ∀ r : Fin n, (combinerL n (rowOf b r)).newLine = rowOf b r := by
  constructor
  · intro he r
    apply listEqOfGetD _ _
      (combinerL_newLine_length n _ (Nat.le_of_eq (rowOf_length b r))) (rowOf_length b r)
    intro c
    have h2 : apply_move b 0 r c = b r c := by rw [he]
    rw [show apply_move b 0 r c = (combinerL n (rowOf b r)).newLine.getD c.val 0 from rfl] at h2
    rw [h2, rowOf_getD]
  · intro hall
    funext r c
    show (combinerL n (rowOf b r)).newLine.getD c.val 0 = b r c
    rw [hall r, rowOf_getD]

theorem apply_move1_eq_iff {n : Nat} (b : Board n) :
    apply_move b 1 = b ↔ ∀ r : Fin n, (combinerR n (rowOf b r)).newLine = rowOf b r := by
  constructor
  · intro he r
    apply listEqOfGetD _ _
      (combinerR_newLine_length n _ (Nat.le_of_eq (rowOf_length b r))) (rowOf_length b r)
    intro c
    have h2 : apply_move b 1 r c = b r c := by rw [he]
    rw [show apply_move b 1 r c = (combinerR n (rowOf b r)).newLine.getD c.val 0 from rfl] at h2
    rw [h2, rowOf_getD]
  · intro hall
    funext r c
    show (combinerR n (rowOf b r)).newLine.getD c.val 0 = b r c
    rw [hall r, rowOf_getD]

theorem legal0_iff {n : Nat} (b : Board n) :
    update_legal_moves b 0 = true ↔ apply_move b 0 ≠ b := by
  have hmove : apply_move b 0 = b ↔
      ¬((∃ r : Fin n, litPair (rowOf b r)) ∨ (∃ r : Fin n, gap (rowOf b r))) := by
    rw [apply_move0_eq_iff]
    constructor
    · intro hall hcon
      rcases hcon with ⟨r, h⟩ | ⟨r, h⟩
      · exact ((combinerL_unchanged_iff n _ (rowOf_length b r)).mp (hall r)).1 h
      · exact ((combinerL_unchanged_iff n _ (rowOf_length b r)).mp (hall r)).2 h
    · intro hno r
      rw [combinerL_unchanged_iff n _ (rowOf_length b r)]
      exact ⟨fun h => hno (Or.inl ⟨r, h⟩), fun h => hno (Or.inr ⟨r, h⟩)⟩
  unfold update_legal_moves
  rw [if_pos (by omega), Bool.or_eq_true, check_if_same0_iff, check_legal0_iff]
  constructor
  · intro h he
    exact hmove.mp he h
  · intro hne
    by_contra hcon
    exact hne (hmove.mpr hcon)

theorem legal1_iff {n : Nat} (b : Board n) :
    update_legal_moves b 1 = true ↔ apply_move b 1 ≠ b := by
  have hmove : apply_move b 1 = b ↔
      ¬((∃ r : Fin n, litPair (rowOf b r)) ∨ (∃ r : Fin n, gap (rowOf b r).reverse)) := by
    rw [apply_move1_eq_iff]
    constructor
    · intro hall hcon
      rcases hcon with ⟨r, h⟩ | ⟨r, h⟩
      · exact ((combinerR_unchanged_iff n _ (rowOf_length b r)).mp (hall r)).1 h
      · exact ((combinerR_unchanged_iff n _ (rowOf_length b r)).mp (hall r)).2 h
    · intro hno r
      rw [combinerR_unchanged_iff n _ (rowOf_length b r)]
      exact ⟨fun h => hno (Or.inl ⟨r, h⟩), fun h => hno (Or.inr ⟨r, h⟩)⟩
  unfold update_legal_moves
  rw [if_pos (by omega), Bool.or_eq_true, check_if_same0_iff, check_legal1_iff]
  constructor
  · intro h he
    exact hmove.mp he h
  · intro hne
    by_contra hcon
    exact hne (hmove.mpr hcon)

theorem transposeB_eq_iff {n : Nat} (x y : Board n) : transposeB x = y ↔ x = transposeB y := by
  constructor
  · intro h
    rw [← h]
    rfl
  · intro h
    rw [h]
    rfl

theorem check_if_same_way1_transpose {n : Nat} (b : Board n) :
    check_if_same b 1 = check_if_same (transposeB b) 0 := rfl

theorem check_legal_way2_transpose {n : Nat} (b : Board n) :
    check_legal b 2 = check_legal (transposeB b) 0 := rfl

theorem check_legal_way3_transpose {n : Nat} (b : Board n) :
    check_legal b 3 = check_legal (transposeB b) 1 := rfl

theorem apply_move2_transpose {n : Nat} (b : Board n) :
    apply_move b 2 = transposeB (apply_move (transposeB b) 0) := rfl

theorem apply_move3_transpose {n : Nat} (b : Board n) :
    apply_move b 3 = transposeB (apply_move (transposeB b) 1) := rfl

theorem update_legal2_transpose {n : Nat} (b : Board n) :
    update_legal_moves b 2 = update_legal_moves (transposeB b) 0 := rfl

theorem update_legal3_transpose {n : Nat} (b : Board n) :
    update_legal_moves b 3 = update_legal_moves (transposeB b) 1 := rfl

theorem legal2_iff {n : Nat} (b : Board n) :
    update_legal_moves b 2 = true ↔ apply_move b 2 ≠ b := by
  rw [update_legal2_transpose, legal0_iff, apply_move2_transpose]
  rw [show (transposeB (apply_move (transposeB b) 0) ≠ b) ↔
      ¬(transposeB (apply_move (transposeB b) 0) = b) from Iff.rfl]
  rw [transposeB_eq_iff]

theorem legal3_iff {n : Nat} (b : Board n) :
    update_legal_moves b 3 = true ↔ apply_move b 3 ≠ b := by
  rw [update_legal3_transpose, legal1_iff, apply_move3_transpose]
  rw [show (transposeB (apply_move (transposeB b) 1) ≠ b) ↔
      ¬(transposeB (apply_move (transposeB b) 1) = b) from Iff.rfl]
  rw [transposeB_eq_iff]

/-- C1: for every board state and every direction d in 0 left, 1 right,
2 up, 3 down, the legal move vector entry computed by the update method
(the adjacency check for the axis of d or the per-direction slide check)
is set exactly when applying the move merge algorithm, the combiner on
every line of the board in direction d, changes at least one cell. -/
theorem C1_legality_soundness (n : Nat) (b : Board n) (d : Fin 4) :
    update_legal_moves b d.val = true ↔ apply_move b d.val ≠ b := by
  fin_cases d
  · exact legal0_iff b
  · exact legal1_iff b
  · exact legal2_iff b
  · exact legal3_iff b

/-- C2 counterexample: on the board with one row 1 0 1 0, the slide scan
written as the spec describes it (mask seeded at the compaction edge,
scanning outward, firing on an occupied position where the mask is zero)
disagrees with the per-direction slide check of the program for the left
direction: the spec scan returns false while the program returns true. -/
theorem C2_counterexample :
    slide_check_spec demoBoard 0 = false ∧ check_legal demoBoard 0 = true := by
  constructor <;> decide

theorem slideScanAmended_eq_slideScan {n : Nat} :
    ∀ (ls : List (Fin n → Bool)) (m : Fin n → Bool), slideScanAmended ls m = slideScan ls m := by
  intro ls
  induction ls with
  | nil => intro m; rfl
  | cons l ls2 ih =>
    intro m
    show (if npAny (fun r => m r && !(l r)) then true
          else slideScanAmended ls2 (fun r => m r || l r))
        = (if npAny (fun r => (xor (m r) (l r)) && m r) then true
           else slideScan ls2 (fun r => m r || l r))
    have hc : (fun r : Fin n => m r && !(l r)) = (fun r : Fin n => (xor (m r) (l r)) && m r) := by
      funext r
      cases m r <;> cases l r <;> rfl
    rw [hc, ih]

/-- C2 amended: the slide check description holds once its orientation
is corrected as the counterexample forces: the running occupancy mask
starts at the line farthest from the compaction edge, the scan walks
toward the compaction edge, and the direction is declared legal exactly
when some scanned line has an empty position where the running mask is
occupied; with that orientation the described scan computes the same
boolean as the per-direction slide check of the program for every board
and every direction. -/
theorem C2_amended_slide_check (n : Nat) (b : Board n) (d : Fin 4) :
    slide_check_amended b d.val = check_legal b d.val := by
  fin_cases d <;>
  · unfold slide_check_amended check_legal
    by_cases hn : n = 0
    · rw [dif_pos hn, dif_pos hn]
    · rw [dif_neg hn, dif_neg hn]
      exact slideScanAmended_eq_slideScan _ _

/-! ### Value conservation -/

theorem sum_map_filter_zero (l : List Nat) :
    ((l.filter (· ≠ 0)).map cellValue).sum = (l.map cellValue).sum := by
  induction l with
  | nil => rfl
  | cons x t ih =>
    by_cases hx : x = 0
    · subst hx
      rw [show ((0 : Nat) :: t).filter (· ≠ 0) = t.filter (· ≠ 0) by simp]
      simp only [List.map_cons, List.sum_cons]
      rw [ih]
      simp [cellValue]
    · rw [show (x :: t).filter (· ≠ 0) = x :: t.filter (· ≠ 0) by simp [hx]]
      simp only [List.map_cons, List.sum_cons]
      rw [ih]

theorem sum_map_replicate_zero (k : Nat) :
    ((List.replicate k (0 : Nat)).map cellValue).sum = 0 := by
  induction k with
  | zero => rfl
  | succ m ih =>
    rw [List.replicate_succ]
    simp only [List.map_cons, List.sum_cons]
    rw [ih]
    simp [cellValue]

theorem line_value_sum_L (n : Nat) (l : List Nat) (h : l.length ≤ n) :
    ((combinerL n l).newLine.map cellValue).sum = (l.map cellValue).sum := by
  rw [(combinerL_char n l h).1]
  unfold padRight
  rw [List.map_append, List.sum_append, sum_map_replicate_zero, Nat.add_zero]
  rw [mergePairs_value_sum _ (fun v hv => by simpa using (List.mem_filter.mp hv).2)]
  exact sum_map_filter_zero l

theorem line_value_sum_R (n : Nat) (l : List Nat) (h : l.length ≤ n) :
    ((combinerR n l).newLine.map cellValue).sum = (l.map cellValue).sum := by
  rw [(combinerR_char n l h).1]
  rw [List.map_append, List.sum_append, sum_map_replicate_zero, Nat.zero_add]
  rw [List.map_reverse, List.sum_reverse]
  rw [mergePairs_value_sum _ (fun v hv => by simpa using (List.mem_filter.mp hv).2)]
  rw [sum_map_filter_zero l.reverse, List.map_reverse, List.sum_reverse]

theorem sum_getD_eq {n : Nat} (L : List Nat) (h : L.length = n) :
    ∑ c : Fin n, cellValue (L.getD c.val 0) = (L.map cellValue).sum := by
  rw [Fin.sum_univ_def]
  congr 1
  apply List.ext_getElem (by simp [h])
  intro i h1 h2
  simp only [List.getElem_map, List.getElem_finRange]
  rw [List.getD_eq_getElem L 0 (by simpa [h] using h2)]
  simp

theorem row_value_sum {n : Nat} (b : Board n) (r : Fin n) :
    ∑ c : Fin n, cellValue (b r c) = ((rowOf b r).map cellValue).sum := by
  rw [Fin.sum_univ_def]
  unfold rowOf
  rw [List.map_map]
  rfl

theorem boardSum_transpose {n : Nat} (b : Board n) : boardSum (transposeB b) = boardSum b := by
  unfold boardSum transposeB
  exact Finset.sum_comm

theorem boardSum_apply_move0 {n : Nat} (b : Board n) : boardSum (apply_move b 0) = boardSum b := by
  unfold boardSum
  apply Finset.sum_congr rfl
  intro r _
  have h1 : ∑ c : Fin n, cellValue (apply_move b 0 r c)
      = ∑ c : Fin n, cellValue ((combinerL n (rowOf b r)).newLine.getD c.val 0) := rfl
  rw [h1, sum_getD_eq _ (combinerL_newLine_length n _ (Nat.le_of_eq (rowOf_length b r)))]
  rw [line_value_sum_L n _ (Nat.le_of_eq (rowOf_length b r))]
  rw [row_value_sum]

theorem boardSum_apply_move1 {n : Nat} (b : Board n) : boardSum (apply_move b 1) = boardSum b := by
  unfold boardSum
  apply Finset.sum_congr rfl
  intro r _
  have h1 : ∑ c : Fin n, cellValue (apply_move b 1 r c)
      = ∑ c : Fin n, cellValue ((combinerR n (rowOf b r)).newLine.getD c.val 0) := rfl
  rw [h1, sum_getD_eq _ (combinerR_newLine_length n _ (Nat.le_of_eq (rowOf_length b r)))]
  rw [line_value_sum_R n _ (Nat.le_of_eq (rowOf_length b r))]
  rw [row_value_sum]

/-- C5: every applied move conserves the total numeric value of the
board: the sum over all cells of 2 ^ exponent (empty cells counting 0)
after the move equals the sum before the move, for each of the four
directions, and hence for each combiner call on a line. -/
theorem C5_value_conservation (n : Nat) (b : Board n) (a : Fin 4) :
    boardSum (apply_move b a.val) = boardSum b := by
  fin_cases a
  · exact boardSum_apply_move0 b
  · exact boardSum_apply_move1 b
  · rw [apply_move2_transpose, boardSum_transpose, boardSum_apply_move0, boardSum_transpose]
  · rw [apply_move3_transpose, boardSum_transpose, boardSum_apply_move1, boardSum_transpose]

/-- C4: no double merge.  Every combiner call decomposes the scanned
nonzero values of its line into groups of size one (a displaced tile) or
size two of equal values (exactly one merge); the output line lists one
tile per group, a merged group of two tiles of exponent a producing a
single tile of exponent a + 1, and the scores list one value per merged
group; in particular the line 1 1 1 0 moved left yields 2 1 0 0 with a
single merge event of numeric value 4. -/
theorem C4_no_double_merge (n : Nat) (line : List Nat) (way : Fin 2) (hlen : line.length = n) :
    (∃ groups : List (List Nat),
      groups.flatten = (if way.val = 0 then line else line.reverse).filter (· ≠ 0) ∧
      (∀ g ∈ groups, (∃ a, g = [a]) ∨ ∃ a, g = [a, a]) ∧
      (combiner n way.val line).newLine =
        (if way.val = 0 then padRight n (groups.map collapseGroup)
         else List.replicate (n - (groups.map collapseGroup).length) 0 ++
           (groups.map collapseGroup).reverse) ∧
      (combiner n way.val line).scores = groups.filterMap groupScore)
    ∧ (combiner 4 0 [1, 1, 1, 0]).newLine = [2, 1, 0, 0]
    ∧ (combiner 4 0 [1, 1, 1, 0]).scores = [4] := by
  refine ⟨?_, by decide, by decide⟩
  fin_cases way
  · refine ⟨groupMerges (line.filter (· ≠ 0)), ?_, groupMerges_shape _, ?_, ?_⟩
    · rw [groupMerges_join]
      rfl
    · show (combinerL n line).newLine = padRight n ((groupMerges (line.filter (· ≠ 0))).map collapseGroup)
      rw [(combinerL_char n line (Nat.le_of_eq hlen)).1, ← groupMerges_collapse]
    · show (combinerL n line).scores = (groupMerges (line.filter (· ≠ 0))).filterMap groupScore
      rw [(combinerL_char n line (Nat.le_of_eq hlen)).2.1, groupMerges_scores]
  · refine ⟨groupMerges (line.reverse.filter (· ≠ 0)), ?_, groupMerges_shape _, ?_, ?_⟩
    · rw [groupMerges_join]
      rfl
    · show (combinerR n line).newLine =
        List.replicate (n - ((groupMerges (line.reverse.filter (· ≠ 0))).map collapseGroup).length)
          0 ++ ((groupMerges (line.reverse.filter (· ≠ 0))).map collapseGroup).reverse
      rw [(combinerR_char n line (Nat.le_of_eq hlen)).1, ← groupMerges_collapse]
    · show (combinerR n line).scores =
        (groupMerges (line.reverse.filter (· ≠ 0))).filterMap groupScore
      rw [(combinerR_char n line (Nat.le_of_eq hlen)).2, groupMerges_scores]

/-- C4 witness: the decomposition theorem applied to the line 1 1 1 0 of
a size 4 board moved left. -/
theorem C4_no_double_merge_witness :
    (combiner 4 0 [1, 1, 1, 0]).newLine = [2, 1, 0, 0] ∧
    (combiner 4 0 [1, 1, 1, 0]).scores = [4] :=
  ⟨(C4_no_double_merge 4 [1, 1, 1, 0] 0 rfl).2.1, (C4_no_double_merge 4 [1, 1, 1, 0] 0 rfl).2.2⟩

theorem zero_pos_mem {n : Nat} (b : Board n) (p : Fin n × Fin n) (h : p ∈ zero_pos b) :
    b p.1 p.2 = 0 := by
  unfold zero_pos at h
  rw [List.mem_flatten] at h
  obtain ⟨sub, hsub, hp⟩ := h
  rw [List.mem_map] at hsub
  obtain ⟨r, _, hr⟩ := hsub
  rw [← hr, List.mem_map] at hp
  obtain ⟨c, hc, hpc⟩ := hp
  rw [List.mem_filter] at hc
  rw [← hpc]
  simpa using hc.2

theorem mem_zero_pos {n : Nat} (b : Board n) (r c : Fin n) (h : b r c = 0) :
    (r, c) ∈ zero_pos b := by
  unfold zero_pos
  rw [List.mem_flatten]
  refine ⟨((List.finRange n).filter (fun c2 => b r c2 == 0)).map (fun c2 => (r, c2)),
    List.mem_map.mpr ⟨r, List.mem_finRange r, rfl⟩, ?_⟩
  rw [List.mem_map]
  exact ⟨c, List.mem_filter.mpr ⟨List.mem_finRange c, by simpa using h⟩, rfl⟩

theorem is_game_over_iff {n : Nat} (b : Board n) :
    is_game_over b = true ↔
      (∀ r c : Fin n, b r c ≠ 0) ∧ check_if_same b 0 = false ∧ check_if_same b 1 = false := by
  unfold is_game_over
  constructor
  · intro h
    by_cases h1 : ∃ r c : Fin n, b r c = 0
    · rw [if_pos (by simpa using h1)] at h
      cases h
    · rw [if_neg (by simpa using h1)] at h
      by_cases h2 : (check_if_same b 0 || check_if_same b 1) = true
      · rw [if_pos h2] at h
        cases h
      · push_neg at h1
        have h3 : (check_if_same b 0 || check_if_same b 1) = false := by
          cases hv : (check_if_same b 0 || check_if_same b 1) with
          | false => rfl
          | true => exact absurd hv h2
        rcases Bool.or_eq_false_iff.mp h3 with ⟨hb0, hb1⟩
        exact ⟨h1, hb0, hb1⟩
  · rintro ⟨hall, hc0, hc1⟩
    rw [if_neg (by simp; intro r c; exact hall r c)]
    rw [if_neg (by rw [hc0, hc1]; simp)]

/-- C6: an action whose entry in the current legal move vector is unset
is a defined outcome, not an error: step returns normally (never the
failure value), leaves the board, the score, and the best score
unchanged, returns reward 0 and not terminated, and clears the legality
flag. -/
theorem C6_illegal_step (n g : Nat) (s : EnvState n) (a : Fin 4) (sidx : Nat) (sv : Bool)
    (h : s.legal_moves a = false) :
    step g s a sidx sv =
      some ({ board := s.board, score := s.score, best_score := s.best_score,
              legal_moves := update_legal s.board, is_legal := false, score_per_step := [] },
            0, false) := by
  unfold step
  rw [h]
  rfl

/-- C6 witness: the illegal step theorem applied at a concrete state. -/
theorem C6_illegal_step_witness :
    step 11 s6demo 0 0 true =
      some ({ board := s6demo.board, score := s6demo.score, best_score := s6demo.best_score,
              legal_moves := update_legal s6demo.board, is_legal := false,
              score_per_step := [] }, 0, false) :=
  C6_illegal_step 4 11 s6demo 0 0 true rfl

/-- C3 counterexample: the conjunct of the claim that a legal step adds
the sum of the merged values to the score fails once a merge exponent
reaches 31, which a valid goal configuration permits.  On the size 6
state s7demo, moving left is marked legal and produces exactly one
merged tile, of exponent 31 and numeric value 2 ^ 31, so the claimed
new score is 0 + 2 ^ 31; the step instead records the int32 power,
which wraps, and returns the score -(2 ^ 31). -/
theorem C3_counterexample :
    s7demo.legal_moves 0 = true ∧
    s7demo.score = 0 ∧
    apply_move s7demo.board 0 0 0 = 31 ∧
    move_scores s7demo.board 0 = [pow2_32 31] ∧
    (step 40 s7demo 0 0 true).isSome = true ∧
    ((step 40 s7demo 0 0 true).getD default).1.score ≠ s7demo.score + 2 ^ 31 := by
  exact ⟨by decide, rfl, by decide, by decide, by decide, by decide⟩

/-- C3 (amended): postcondition of a step whose action is marked legal.
The move is applied and the recorded merge values are added to the
score in int32 arithmetic: the per step list is summed by int32
additions and the result is folded into the score by one int32
addition (this equals the plain sum of the numeric merge values only
while no 32 bit wraparound occurs).  If
some cell of the moved board equals the goal exponent, the step returns
reward 1 and terminated, and the returned board is the moved board with
no spawn.  Otherwise exactly one tile with exponent 1 or 2 is spawned
into a cell that was empty after the move, and the step returns
terminated with reward -1 exactly when the post-spawn board has no empty
cell and both adjacency checks are false, in which case the best score
becomes the maximum of the old best score and the new score; in every
remaining case the reward is 0 and the step is not terminated. -/
theorem C3_step_legal (n g : Nat) (s : EnvState n) (a : Fin 4) (sidx : Nat) (sv : Bool)
    (hleg : s.legal_moves a = true)
    (hidx : sidx < (zero_pos (apply_move s.board a.val)).length) :
    (is_reach_goal (apply_move s.board a.val) g = true →
      step g s a sidx sv =
        some ({ board := apply_move s.board a.val,
                score := add32 s.score (sum32 (move_scores s.board a.val)),
                best_score := s.best_score,
                legal_moves := update_legal (apply_move s.board a.val),
                is_legal := true,
                score_per_step := move_scores s.board a.val }, 1, true))
    ∧ (is_reach_goal (apply_move s.board a.val) g = false →
      ∃ r c b3,
        (zero_pos (apply_move s.board a.val))[sidx]? = some (r, c) ∧
        apply_move s.board a.val r c = 0 ∧
        b3 = setCell (apply_move s.board a.val) r c (random_1_2 sv) ∧
        (random_1_2 sv = 1 ∨ random_1_2 sv = 2) ∧
        step g s a sidx sv =
          some ({ board := b3,
                  score := add32 s.score (sum32 (move_scores s.board a.val)),
                  best_score := if is_game_over b3 then
                      max s.best_score (add32 s.score (sum32 (move_scores s.board a.val)))
                    else s.best_score,
                  legal_moves := update_legal b3,
                  is_legal := true,
                  score_per_step := move_scores s.board a.val },
                if is_game_over b3 then -1 else 0,
                is_game_over b3) ∧
        (is_game_over b3 = true ↔
          ((∀ r2 c2 : Fin n, b3 r2 c2 ≠ 0) ∧
           check_if_same b3 0 = false ∧ check_if_same b3 1 = false))) := by
  constructor
  · intro hgoal
    unfold step
    rw [hleg, if_pos rfl]
    simp only [hgoal, if_true]
  · intro hgoal
    have hsome : (zero_pos (apply_move s.board a.val))[sidx]? =
        some ((zero_pos (apply_move s.board a.val))[sidx]) := List.getElem?_eq_getElem hidx
    refine ⟨(zero_pos (apply_move s.board a.val))[sidx].1,
      (zero_pos (apply_move s.board a.val))[sidx].2,
      setCell (apply_move s.board a.val) (zero_pos (apply_move s.board a.val))[sidx].1
        (zero_pos (apply_move s.board a.val))[sidx].2 (random_1_2 sv),
      by rw [hsome], ?_, rfl, ?_, ?_, is_game_over_iff _⟩
    · exact zero_pos_mem _ _ (List.getElem_mem hidx)
    · cases sv with
      | false => exact Or.inr rfl
      | true => exact Or.inl rfl
    · unfold step
      rw [hleg, if_pos rfl]
      simp only [hgoal]
      rw [if_neg (by simp)]
      unfold spawn_block
      rw [hsome]
      by_cases hgo : is_game_over (setCell (apply_move s.board a.val)
          (zero_pos (apply_move s.board a.val))[sidx].1
          (zero_pos (apply_move s.board a.val))[sidx].2 (random_1_2 sv)) = true
      · simp only [hgo, if_true]
      · have hgo2 : is_game_over (setCell (apply_move s.board a.val)
            (zero_pos (apply_move s.board a.val))[sidx].1
            (zero_pos (apply_move s.board a.val))[sidx].2 (random_1_2 sv)) = false := by
          cases hv : is_game_over (setCell (apply_move s.board a.val)
              (zero_pos (apply_move s.board a.val))[sidx].1
              (zero_pos (apply_move s.board a.val))[sidx].2 (random_1_2 sv)) with
          | false => rfl
          | true => exact absurd hv hgo
        simp [hgo2]

/-- C3 witness: a legal left move on the board with row 1 0 1 0 runs the
spawn branch and returns normally. -/
theorem C3_step_legal_witness : step 11 s3demo 0 0 true ≠ none := by
  have h := (C3_step_legal 4 11 s3demo 0 0 true (by decide) (by decide)).2 (by decide)
  obtain ⟨r, c, b3, _, _, _, _, hstep, _⟩ := h
  rw [hstep]
  simp

theorem wrap32_eq_self (x : Int) (h1 : -(2 ^ 31) ≤ x) (h2 : x < 2 ^ 31) : wrap32 x = x := by
  unfold wrap32
  have e1 : (2 : Int) ^ 31 = 2147483648 := by norm_num
  have e2 : (2 : Int) ^ 32 = 4294967296 := by norm_num
  rw [e1] at h1 h2 ⊢
  rw [e2]
  rw [Int.emod_eq_of_lt (by omega) (by omega)]
  omega

theorem foldl_add_shift (l : List Int) : ∀ a : Int,
    l.foldl (fun x y => x + y) a = a + l.foldl (fun x y => x + y) 0 := by
  induction l with
  | nil => intro a; simp
  | cons b t ih =>
    intro a
    rw [List.foldl_cons, List.foldl_cons, ih (a + b), ih (0 + b)]
    ring

theorem foldl_add_nonneg : ∀ l : List Int, (∀ x ∈ l, 0 ≤ x) →
    0 ≤ l.foldl (fun x y => x + y) 0 := by
  intro l
  induction l with
  | nil => intro _; simp
  | cons b t ih =>
    intro h
    rw [List.foldl_cons, foldl_add_shift]
    have hb := h b (by simp)
    have ht := ih (fun x hx => h x (by simp [hx]))
    omega

theorem foldl_wrap32_eq : ∀ (l : List Int) (acc : Int), 0 ≤ acc →
    (∀ x ∈ l, 0 ≤ x) →
    acc + l.foldl (fun x y => x + y) 0 < 2 ^ 31 →
    l.foldl (fun x y => wrap32 (x + y)) acc = l.foldl (fun x y => x + y) acc := by
  intro l
  induction l with
  | nil => intro acc _ _ _; rfl
  | cons b t ih =>
    intro acc hacc hmem hlt
    have e1 : (2 : Int) ^ 31 = 2147483648 := by norm_num
    have hb : (0 : Int) ≤ b := hmem b (by simp)
    have htmem : ∀ x ∈ t, 0 ≤ x := fun x hx => hmem x (by simp [hx])
    have htno : 0 ≤ t.foldl (fun x y => x + y) 0 := foldl_add_nonneg t htmem
    rw [List.foldl_cons, foldl_add_shift] at hlt
    rw [List.foldl_cons, List.foldl_cons]
    have hw : wrap32 (acc + b) = acc + b := wrap32_eq_self _ (by omega) (by omega)
    rw [hw]
    exact ih (acc + b) (by omega) htmem (by omega)

/-- The python sum of non-negative int32 scalars is the plain sum while
the plain sum stays below 2 ^ 31. -/
theorem sum32_eq_of_nonneg (l : List Int) (hmem : ∀ x ∈ l, 0 ≤ x)
    (hlt : l.foldl (fun x y => x + y) 0 < 2 ^ 31) :
    sum32 l = l.foldl (fun x y => x + y) 0 := by
  unfold sum32
  exact foldl_wrap32_eq l 0 le_rfl hmem (by omega)

/-- The recorded int32 score of a merge is the true numeric value while
the new exponent is at most 30. -/
theorem pow2_32_eq_pow (e : Nat) (he : e ≤ 30) : pow2_32 e = 2 ^ e := by
  unfold pow2_32
  refine wrap32_eq_self _ ?_ ?_
  · have h1 : (0 : Int) ≤ 2 ^ e := by positivity
    have h2 : (0 : Int) < 2 ^ 31 := by positivity
    omega
  · calc (2 : Int) ^ e ≤ 2 ^ 30 := pow_le_pow_right₀ (by norm_num) he
      _ < 2 ^ 31 := by norm_num

/-- C7 counterexample: score accounting over the true numeric values,
with a non-negative monotone score, fails once a merge exponent reaches
31, which a valid goal configuration permits (a goal exponent above 31
passes the constructor assertion, and a size 6 board can build exponent
30 tiles).  On the size 6 state s7demo (two adjacent tiles of exponent
30, score 0) moving left is legal and merges the pair into one tile of
exponent 31, of numeric value 2 ^ 31; the source records
2 ** new_line[cur - 1] in int32, which wraps to -(2 ^ 31), and the
returned score is -(2 ^ 31): the increase is not the sum of the numeric
values of the merge-produced tiles, and the score strictly decreases,
refuting non-negativity and monotonicity. -/
theorem C7_counterexample :
    s7demo.score = 0 ∧
    s7demo.legal_moves 0 = true ∧
    (step 40 s7demo 0 0 true).isSome = true ∧
    ((step 40 s7demo 0 0 true).getD default).1.board 0 0 = 31 ∧
    ((step 40 s7demo 0 0 true).getD default).1.score_per_step = [pow2_32 31] ∧
    pow2_32 31 = -(2 ^ 31) ∧
    ((step 40 s7demo 0 0 true).getD default).1.score = -(2 ^ 31) ∧
    ((step 40 s7demo 0 0 true).getD default).1.score < s7demo.score := by
  exact ⟨rfl, by decide, by decide, by decide, by decide, by decide, by decide, by decide⟩

/-- C7 (amended): score accounting in int32 arithmetic.  For every step
that returns: when the action is legal the new score is the old score
plus, by one int32 addition, the int32 sum of the per step merge value
list, and that list is exactly the merge values of the move; when the
action is illegal the score and the list are unchanged and empty.  Each
combiner call emits exactly the recorded int32 values of the tiles
produced by merges in scan order, the recorded value for a tile of new
exponent e being the int32 reduction of 2 ^ e, equal to the numeric
value 2 ^ e whenever e is at most 30.  The score does not decrease on
any step whose recorded values are non-negative and whose plain sum
keeps the score below 2 ^ 31 (in particular while every merge exponent
is at most 30 and no wraparound has occurred); unconditional
monotonicity and non-negativity fail, see the counterexample.  Reset
sets the score to 0. -/
theorem C7_amended_score_accounting (n g : Nat) :
    (∀ (s : EnvState n) (a : Fin 4) (sidx : Nat) (sv : Bool) (s2 : EnvState n)
        (rew : Int) (t : Bool),
      step g s a sidx sv = some (s2, rew, t) →
      (s.legal_moves a = true →
        s2.score = add32 s.score (sum32 s2.score_per_step) ∧
        s2.score_per_step = move_scores s.board a.val) ∧
      (s.legal_moves a = false → s2.score = s.score ∧ s2.score_per_step = []))
    ∧ (∀ (s : EnvState n) (a : Fin 4) (sidx : Nat) (sv : Bool) (s2 : EnvState n)
        (rew : Int) (t : Bool),
      step g s a sidx sv = some (s2, rew, t) →
      0 ≤ s.score →
      (∀ x ∈ s2.score_per_step, 0 ≤ x) →
      s.score + s2.score_per_step.foldl (fun x y => x + y) 0 < 2 ^ 31 →
      s.score ≤ s2.score)
    ∧ (∀ (way : Fin 2) (l : List Nat), l.length = n →
      (combiner n way.val l).scores =
        mergeScores ((if way.val = 0 then l else l.reverse).filter (· ≠ 0)))
    ∧ (∀ e : Nat, e ≤ 30 → pow2_32 e = 2 ^ e)
    ∧ (∀ (best : Int) (i1 : Nat) (v1 : Bool) (i2 : Nat) (v2 : Bool) (s0 : EnvState n),
      reset n best i1 v1 i2 v2 = some s0 → s0.score = 0) := by
  have main : ∀ (s : EnvState n) (a : Fin 4) (sidx : Nat) (sv : Bool) (s2 : EnvState n)
      (rew : Int) (t : Bool),
      step g s a sidx sv = some (s2, rew, t) →
      (s.legal_moves a = true →
        s2.score = add32 s.score (sum32 s2.score_per_step) ∧
        s2.score_per_step = move_scores s.board a.val) ∧
      (s.legal_moves a = false → s2.score = s.score ∧ s2.score_per_step = []) := by
    intro s a sidx sv s2 rew t hstep
    by_cases hleg : s.legal_moves a = true
    · unfold step at hstep
      rw [hleg, if_pos rfl] at hstep
      by_cases hg : is_reach_goal (apply_move s.board a.val) g = true
      · simp only [hg, if_true] at hstep
        rw [Option.some.injEq, Prod.mk.injEq, Prod.mk.injEq] at hstep
        obtain ⟨hs2, _⟩ := hstep
        rw [← hs2]
        exact ⟨fun _ => ⟨rfl, rfl⟩, fun hcon => absurd hleg (by rw [hcon]; simp)⟩
      · have hg2 : is_reach_goal (apply_move s.board a.val) g = false := by
          cases hv : is_reach_goal (apply_move s.board a.val) g with
          | false => rfl
          | true => exact absurd hv hg
        simp only [hg2] at hstep
        rw [if_neg (by simp)] at hstep
        cases hsp : spawn_block (apply_move s.board a.val) sidx (random_1_2 sv) with
        | none =>
          rw [hsp] at hstep
          cases hstep
        | some b3 =>
          rw [hsp] at hstep
          by_cases hgo : is_game_over b3 = true
          · simp only [hgo, if_true] at hstep
            rw [Option.some.injEq, Prod.mk.injEq, Prod.mk.injEq] at hstep
            obtain ⟨hs2, _⟩ := hstep
            rw [← hs2]
            exact ⟨fun _ => ⟨rfl, rfl⟩, fun hcon => absurd hleg (by rw [hcon]; simp)⟩
          · have hgo2 : is_game_over b3 = false := by
              cases hv : is_game_over b3 with
              | false => rfl
              | true => exact absurd hv hgo
            simp only [hgo2] at hstep
            rw [if_neg (by simp)] at hstep
            rw [Option.some.injEq, Prod.mk.injEq, Prod.mk.injEq] at hstep
            obtain ⟨hs2, _⟩ := hstep
            rw [← hs2]
            exact ⟨fun _ => ⟨rfl, rfl⟩, fun hcon => absurd hleg (by rw [hcon]; simp)⟩
    · have hleg2 : s.legal_moves a = false := by
        cases hv : s.legal_moves a with
        | false => rfl
        | true => exact absurd hv hleg
      unfold step at hstep
      rw [hleg2] at hstep
      rw [if_neg (by simp)] at hstep
      rw [Option.some.injEq, Prod.mk.injEq, Prod.mk.injEq] at hstep
      obtain ⟨hs2, _⟩ := hstep
      rw [← hs2]
      exact ⟨fun hcon => absurd hcon (by rw [hleg2]; simp), fun _ => ⟨rfl, rfl⟩⟩
  refine ⟨main, ?_, ?_, fun e he => pow2_32_eq_pow e he, ?_⟩
  · intro s a sidx sv s2 rew t hstep hnn hmem hlt
    have e1 : (2 : Int) ^ 31 = 2147483648 := by norm_num
    obtain ⟨hyes, hno⟩ := main s a sidx sv s2 rew t hstep
    by_cases hleg : s.legal_moves a = true
    · obtain ⟨hsc, _⟩ := hyes hleg
      have hfold : 0 ≤ s2.score_per_step.foldl (fun x y => x + y) 0 :=
        foldl_add_nonneg s2.score_per_step hmem
      have hsum : sum32 s2.score_per_step = s2.score_per_step.foldl (fun x y => x + y) 0 :=
        sum32_eq_of_nonneg s2.score_per_step hmem (by omega)
      rw [hsc, hsum]
      unfold add32
      rw [wrap32_eq_self _ (by omega) (by omega)]
      omega
    · have hleg2 : s.legal_moves a = false := by
        cases hv : s.legal_moves a with
        | false => rfl
        | true => exact absurd hv hleg
      obtain ⟨hsc, _⟩ := hno hleg2
      exact le_of_eq hsc.symm
  · intro way l hl
    fin_cases way
    · show (combinerL n l).scores = mergeScores ((if (0 : Nat) = 0 then l else l.reverse).filter (· ≠ 0))
      rw [if_pos rfl]
      exact (combinerL_char n l (Nat.le_of_eq hl)).2.1
    · show (combinerR n l).scores = mergeScores ((if (1 : Nat) = 0 then l else l.reverse).filter (· ≠ 0))
      rw [if_neg (by omega)]
      exact (combinerR_char n l (Nat.le_of_eq hl)).2
  · intro best i1 v1 i2 v2 s0 hres
    unfold reset at hres
    cases h1 : spawn_block (fun _ _ => (0 : Nat)) i1 (random_1_2 v1) with
    | none =>
      rw [h1] at hres
      cases hres
    | some b1 =>
      rw [h1] at hres
      simp only [] at hres
      cases h2 : spawn_block b1 i2 (random_1_2 v2) with
      | none =>
        rw [h2] at hres
        cases hres
      | some b2 =>
        rw [h2] at hres
        simp only [] at hres
        rw [Option.some.injEq] at hres
        rw [← hres]

/-- C7 witness: the amended accounting theorem on the line 1 1 1 0 of a
size 4 board moved left: the single merge of two tiles of exponent 1
records the int32 value of 2 ^ 2, which is still the numeric value 4
because the new exponent 2 is at most 30. -/
theorem C7_amended_score_accounting_witness :
    (combiner 4 0 [1, 1, 1, 0]).scores = [4] ∧ pow2_32 2 = 4 := by
  have h := (C7_amended_score_accounting 4 11).2.2.1 0 [1, 1, 1, 0] rfl
  have h2 := (C7_amended_score_accounting 4 11).2.2.2.1 2 (by omega)
  exact ⟨h.trans (by decide), h2.trans (by norm_num)⟩

/-! ### Reachable states and the exponent bound -/

theorem getD_cases (L : List Nat) (i : Nat) : L.getD i 0 = 0 ∨ L.getD i 0 ∈ L := by
  by_cases h : i < L.length
  · right
    rw [List.getD_eq_getElem L 0 h]
    exact List.getElem_mem h
  · left
    exact List.getD_eq_default _ _ (by omega)

theorem combinerL_cell_bound (n : Nat) (l : List Nat) (g : Nat) (hl : l.length ≤ n)
    (hb : ∀ v ∈ l, v < g) : ∀ i, (combinerL n l).newLine.getD i 0 ≤ g := by
  intro i
  rw [(combinerL_char n l hl).1]
  unfold padRight
  rcases getD_cases (mergePairs (l.filter (· ≠ 0)) ++
      List.replicate (n - (mergePairs (l.filter (· ≠ 0))).length) 0) i with h | h
  · omega
  · rcases List.mem_append.mp h with h2 | h2
    · exact mergePairs_le_of_lt _ g (fun v hv => hb v (List.mem_filter.mp hv).1) _ h2
    · have := List.eq_of_mem_replicate h2
      omega

theorem combinerR_cell_bound (n : Nat) (l : List Nat) (g : Nat) (hl : l.length ≤ n)
    (hb : ∀ v ∈ l, v < g) : ∀ i, (combinerR n l).newLine.getD i 0 ≤ g := by
  intro i
  rw [(combinerR_char n l hl).1]
  rcases getD_cases (List.replicate (n - (mergePairs (l.reverse.filter (· ≠ 0))).length) 0 ++
      (mergePairs (l.reverse.filter (· ≠ 0))).reverse) i with h | h
  · omega
  · rcases List.mem_append.mp h with h2 | h2
    · have := List.eq_of_mem_replicate h2
      omega
    · rw [List.mem_reverse] at h2
      refine mergePairs_le_of_lt _ g (fun v hv => ?_) _ h2
      have hv2 := (List.mem_filter.mp hv).1
      rw [List.mem_reverse] at hv2
      exact hb v hv2

theorem mem_rowOf {n : Nat} (b : Board n) (r : Fin n) (v : Nat) (h : v ∈ rowOf b r) :
    ∃ c, v = b r c := by
  unfold rowOf at h
  rw [List.mem_map] at h
  obtain ⟨c, _, hc⟩ := h
  exact ⟨c, hc.symm⟩

theorem apply_move0_bound {n : Nat} (b : Board n) (g : Nat) (hb : ∀ r c, b r c < g) :
    ∀ r c, apply_move b 0 r c ≤ g := by
  intro r c
  show (combinerL n (rowOf b r)).newLine.getD c.val 0 ≤ g
  refine combinerL_cell_bound n _ g (Nat.le_of_eq (rowOf_length b r)) ?_ c.val
  intro v hv
  obtain ⟨c2, hc2⟩ := mem_rowOf b r v hv
  rw [hc2]
  exact hb r c2

theorem apply_move1_bound {n : Nat} (b : Board n) (g : Nat) (hb : ∀ r c, b r c < g) :
    ∀ r c, apply_move b 1 r c ≤ g := by
  intro r c
  show (combinerR n (rowOf b r)).newLine.getD c.val 0 ≤ g
  refine combinerR_cell_bound n _ g (Nat.le_of_eq (rowOf_length b r)) ?_ c.val
  intro v hv
  obtain ⟨c2, hc2⟩ := mem_rowOf b r v hv
  rw [hc2]
  exact hb r c2

theorem apply_move_bound {n : Nat} (b : Board n) (a : Fin 4) (g : Nat)
    (hb : ∀ r c, b r c < g) : ∀ r c, apply_move b a.val r c ≤ g := by
  fin_cases a
  · exact apply_move0_bound b g hb
  · exact apply_move1_bound b g hb
  · intro r c
    exact apply_move0_bound (transposeB b) g (fun r2 c2 => hb c2 r2) c r
  · intro r c
    exact apply_move1_bound (transposeB b) g (fun r2 c2 => hb c2 r2) c r

theorem random_1_2_le (v : Bool) : random_1_2 v ≤ 2 := by
  cases v <;> simp [random_1_2]

theorem spawn_block_inv {n : Nat} (b : Board n) (idx v : Nat) (b2 : Board n)
    (h : spawn_block b idx v = some b2) :
    ∃ p : Fin n × Fin n, (zero_pos b)[idx]? = some p ∧ b2 = setCell b p.1 p.2 v ∧
      b p.1 p.2 = 0 := by
  unfold spawn_block at h
  cases hp : (zero_pos b)[idx]? with
  | none =>
    rw [hp] at h
    cases h
  | some p =>
    rw [hp] at h
    simp only [] at h
    rw [Option.some.injEq] at h
    refine ⟨p, rfl, h.symm, zero_pos_mem b p ?_⟩
    obtain ⟨hlt, he⟩ := List.getElem?_eq_some.mp hp
    exact he ▸ List.getElem_mem hlt

theorem setCell_bound {n : Nat} (b : Board n) (r c : Fin n) (v g : Nat)
    (hb : ∀ r2 c2, b r2 c2 < g) (hv : v < g) : ∀ r2 c2, setCell b r c v r2 c2 < g := by
  intro r2 c2
  unfold setCell
  by_cases h : r2 = r ∧ c2 = c
  · rw [if_pos h]; exact hv
  · rw [if_neg h]; exact hb r2 c2

theorem is_reach_goal_false {n : Nat} (b : Board n) (g : Nat)
    (h : is_reach_goal b g = false) : ∀ r c, b r c ≠ g := by
  unfold is_reach_goal at h
  intro r c hcon
  rw [decide_eq_false_iff_not] at h
  exact h ⟨r, c, hcon⟩

theorem reset_inv (n : Nat) (best : Int) (i1 : Nat) (v1 : Bool) (i2 : Nat) (v2 : Bool)
    (s : EnvState n)
    (h : reset n best i1 v1 i2 v2 = some s) :
    ∃ b1 b2, spawn_block ((fun _ _ => 0) : Board n) i1 (random_1_2 v1) = some b1 ∧
      spawn_block b1 i2 (random_1_2 v2) = some b2 ∧
      s = { board := b2, score := 0, best_score := best, legal_moves := update_legal b2,
            is_legal := true, score_per_step := [] } := by
  unfold reset at h
  cases h1 : spawn_block ((fun _ _ => 0) : Board n) i1 (random_1_2 v1) with
  | none =>
    rw [h1] at h
    cases h
  | some b1 =>
    rw [h1] at h
    simp only [] at h
    cases h2 : spawn_block b1 i2 (random_1_2 v2) with
    | none =>
      rw [h2] at h
      cases h
    | some b2 =>
      rw [h2] at h
      simp only [] at h
      rw [Option.some.injEq] at h
      exact ⟨b1, b2, rfl, h2, h.symm⟩

theorem step_inv {n : Nat} (g : Nat) (s : EnvState n) (a : Fin 4) (sidx : Nat) (sv : Bool)
    (s2 : EnvState n) (rew : Int) (t : Bool)
    (h : step g s a sidx sv = some (s2, rew, t)) :
    (s.legal_moves a = false ∧ s2.board = s.board ∧
      s2.legal_moves = update_legal s.board ∧ t = false)
    ∨ (s.legal_moves a = true ∧ is_reach_goal (apply_move s.board a.val) g = true ∧
      s2.board = apply_move s.board a.val ∧
      s2.legal_moves = update_legal (apply_move s.board a.val) ∧ t = true)
    ∨ (s.legal_moves a = true ∧ is_reach_goal (apply_move s.board a.val) g = false ∧
      ∃ b3, spawn_block (apply_move s.board a.val) sidx (random_1_2 sv) = some b3 ∧
        s2.board = b3 ∧ s2.legal_moves = update_legal b3 ∧ t = is_game_over b3) := by
  by_cases hleg : s.legal_moves a = true
  · unfold step at h
    rw [hleg, if_pos rfl] at h
    by_cases hg : is_reach_goal (apply_move s.board a.val) g = true
    · simp only [hg, if_true] at h
      rw [Option.some.injEq, Prod.mk.injEq, Prod.mk.injEq] at h
      obtain ⟨hs2, _, ht⟩ := h
      exact Or.inr (Or.inl ⟨hleg, hg, by rw [← hs2], by rw [← hs2], ht.symm⟩)
    · have hg2 : is_reach_goal (apply_move s.board a.val) g = false := by
        cases hv : is_reach_goal (apply_move s.board a.val) g with
        | false => rfl
        | true => exact absurd hv hg
      simp only [hg2] at h
      rw [if_neg (by simp)] at h
      cases hsp : spawn_block (apply_move s.board a.val) sidx (random_1_2 sv) with
      | none =>
        rw [hsp] at h
        cases h
      | some b3 =>
        rw [hsp] at h
        simp only [] at h
        by_cases hgo : is_game_over b3 = true
        · simp only [hgo, if_true] at h
          rw [Option.some.injEq, Prod.mk.injEq, Prod.mk.injEq] at h
          obtain ⟨hs2, _, ht⟩ := h
          exact Or.inr (Or.inr ⟨hleg, hg2, b3, rfl, by rw [← hs2], by rw [← hs2],
            by rw [← ht, hgo]⟩)
        · have hgo2 : is_game_over b3 = false := by
            cases hv : is_game_over b3 with
            | false => rfl
            | true => exact absurd hv hgo
          simp only [hgo2] at h
          rw [if_neg (by simp)] at h
          rw [Option.some.injEq, Prod.mk.injEq, Prod.mk.injEq] at h
          obtain ⟨hs2, _, ht⟩ := h
          exact Or.inr (Or.inr ⟨hleg, hg2, b3, rfl, by rw [← hs2], by rw [← hs2],
            by rw [← ht, hgo2]⟩)
  · have hleg2 : s.legal_moves a = false := by
      cases hv : s.legal_moves a with
      | false => rfl
      | true => exact absurd hv hleg
    unfold step at h
    rw [hleg2, if_neg (by simp)] at h
    rw [Option.some.injEq, Prod.mk.injEq, Prod.mk.injEq] at h
    obtain ⟨hs2, _, ht⟩ := h
    exact Or.inl ⟨hleg2, by rw [← hs2], by rw [← hs2], ht.symm⟩

/-- In every reachable state the stored legal move vector is the one
computed from the current board. -/
theorem reach_sync (n g : Nat) : ∀ (s : EnvState n) (t : Bool), Reach n g s t →
    s.legal_moves = update_legal s.board := by
  intro s t h
  induction h with
  | reset_ok best i1 v1 i2 v2 s hres =>
    obtain ⟨b1, b2, _, _, hs⟩ := reset_inv n best i1 v1 i2 v2 s hres
    rw [hs]
  | step_ok s a sidx sv s2 rew t hre hstep ih =>
    rcases step_inv g s a sidx sv s2 rew t hstep with
      ⟨_, hb, hl, _⟩ | ⟨_, _, hb, hl, _⟩ | ⟨_, _, b3, _, hb, hl, _⟩ <;>
      rw [hl, hb]

theorem reach_bound (n g : Nat) (hg : 2 < g) : ∀ (s : EnvState n) (t : Bool), Reach n g s t →
    (∀ r c, s.board r c ≤ g) ∧ (t = false → ∀ r c, s.board r c < g) := by
  intro s t h
  induction h with
  | reset_ok best i1 v1 i2 v2 s hres =>
    obtain ⟨b1, b2, h1, h2, hs⟩ := reset_inv n best i1 v1 i2 v2 s hres
    obtain ⟨p1, _, hb1, _⟩ := spawn_block_inv _ i1 _ b1 h1
    obtain ⟨p2, _, hb2, _⟩ := spawn_block_inv _ i2 _ b2 h2
    have hv1 : random_1_2 v1 < g := by have := random_1_2_le v1; omega
    have hv2 : random_1_2 v2 < g := by have := random_1_2_le v2; omega
    have hb1lt : ∀ r c, b1 r c < g := by
      rw [hb1]
      exact setCell_bound _ _ _ _ g (fun _ _ => by omega) hv1
    have hb2lt : ∀ r c, b2 r c < g := by
      rw [hb2]
      exact setCell_bound _ _ _ _ g hb1lt hv2
    rw [hs]
    exact ⟨fun r c => Nat.le_of_lt (hb2lt r c), fun _ => hb2lt⟩
  | step_ok s a sidx sv s2 rew t hre hstep ih =>
    have hlt : ∀ r c, s.board r c < g := ih.2 rfl
    rcases step_inv g s a sidx sv s2 rew t hstep with
      ⟨_, hb, _, ht⟩ | ⟨_, _, hb, _, ht⟩ | ⟨_, hng, b3, hsp, hb, _, ht⟩
    · rw [hb, ht]
      exact ⟨fun r c => Nat.le_of_lt (hlt r c), fun _ => hlt⟩
    · rw [hb, ht]
      refine ⟨apply_move_bound s.board a g hlt, ?_⟩
      intro hcon
      cases hcon
    · obtain ⟨p, _, hb3, _⟩ := spawn_block_inv _ sidx _ b3 hsp
      have hmle := apply_move_bound s.board a g hlt
      have hmne := is_reach_goal_false _ g hng
      have hmlt : ∀ r c, apply_move s.board a.val r c < g := by
        intro r c
        have h1 := hmle r c
        have h2 := hmne r c
        omega
      have hv : random_1_2 sv < g := by have := random_1_2_le sv; omega
      have hb3lt : ∀ r c, b3 r c < g := by
        rw [hb3]
        exact setCell_bound _ _ _ _ g hmlt hv
      rw [hb]
      exact ⟨fun r c => Nat.le_of_lt (hb3lt r c), fun _ => hb3lt⟩

/-- C8: board exponent invariant.  In every reachable state, obtained by
a reset followed by any sequence of steps that stops once a step reports
terminated, every cell of the board stores an exponent between 0 and the
goal exponent, for every goal exponent the constructor accepts (the
constructor asserts 2 < log2 of the goal). -/
theorem C8_board_exponent_invariant (n g : Nat) (hg : 2 < g) (s : EnvState n) (t : Bool)
    (hreach : Reach n g s t) : ∀ r c, s.board r c ≤ g :=
  (reach_bound n g hg s t hreach).1

/-- C8 witness: the invariant at the concrete state reached by a reset
of a size 4 engine with goal exponent 11. -/
theorem C8_board_exponent_invariant_witness :
    ((reset 4 0 0 true 0 true).getD default).board 0 0 ≤ 11 :=
  C8_board_exponent_invariant 4 11 (by omega) ((reset 4 0 0 true 0 true).getD default) false
    (Reach.reset_ok 0 0 true 0 true _ rfl) 0 0

theorem combinerL_changed_zero (n : Nat) (l : List Nat) (h : l.length = n)
    (hne : (combinerL n l).newLine ≠ l) :
    ∃ i : Fin n, (combinerL n l).newLine.getD i.val 0 = 0 := by
  have hchar := (combinerL_char n l (Nat.le_of_eq h)).1
  by_cases hlen : (mergePairs (l.filter (· ≠ 0))).length < n
  · refine ⟨⟨n - 1, by omega⟩, ?_⟩
    rw [hchar]
    unfold padRight
    rw [getD_append_right _ _ _
      (by show (mergePairs (l.filter (· ≠ 0))).length ≤ n - 1; omega)]
    exact getD_replicate_zero _ _
  · exfalso
    have h1 : (mergePairs (l.filter (· ≠ 0))).length ≤ (l.filter (· ≠ 0)).length :=
      length_mergePairs_le _
    have h2 : (l.filter (· ≠ 0)).length ≤ l.length := List.length_filter_le _ _
    have hfl : (l.filter (· ≠ 0)).length = l.length := by omega
    have hfeq : l.filter (· ≠ 0) = l := (List.filter_sublist l).eq_of_length hfl
    have hnp : ¬ pairAdj (l.filter (· ≠ 0)) := by
      intro hp
      have := mergePairs_length_lt _ hp
      omega
    apply hne
    rw [hchar, mergePairs_eq_of_not _ hnp, hfeq]
    unfold padRight
    rw [h, Nat.sub_self]
    simp

theorem combinerR_changed_zero (n : Nat) (l : List Nat) (h : l.length = n)
    (hne : (combinerR n l).newLine ≠ l) :
    ∃ i : Fin n, (combinerR n l).newLine.getD i.val 0 = 0 := by
  have hchar := (combinerR_char n l (Nat.le_of_eq h)).1
  by_cases hlen : (mergePairs (l.reverse.filter (· ≠ 0))).length < n
  · have hn : 0 < n := by omega
    refine ⟨⟨0, hn⟩, ?_⟩
    rw [hchar]
    rw [getD_append_left _ _ _
      (by show (0 : Nat) <
            (List.replicate (n - (mergePairs (l.reverse.filter (· ≠ 0))).length) 0).length
          rw [List.length_replicate]
          omega)]
    exact getD_replicate_zero _ _
  · exfalso
    have h1 : (mergePairs (l.reverse.filter (· ≠ 0))).length ≤ (l.reverse.filter (· ≠ 0)).length :=
      length_mergePairs_le _
    have h2 : (l.reverse.filter (· ≠ 0)).length ≤ l.reverse.length := List.length_filter_le _ _
    have hrl : l.reverse.length = n := by simpa using h
    have hfl : (l.reverse.filter (· ≠ 0)).length = l.reverse.length := by omega
    have hfeq : l.reverse.filter (· ≠ 0) = l.reverse := (List.filter_sublist l.reverse).eq_of_length hfl
    have hnp : ¬ pairAdj (l.reverse.filter (· ≠ 0)) := by
      intro hp
      have := mergePairs_length_lt _ hp
      omega
    apply hne
    rw [hchar, mergePairs_eq_of_not _ hnp, hfeq]
    rw [List.reverse_reverse, hrl, Nat.sub_self]
    simp

theorem apply_move0_ne_has_zero {n : Nat} (b : Board n) (h : apply_move b 0 ≠ b) :
    ∃ r c, apply_move b 0 r c = 0 := by
  have h2 : ¬ ∀ r : Fin n, (combinerL n (rowOf b r)).newLine = rowOf b r := by
    intro hall
    exact h ((apply_move0_eq_iff b).mpr hall)
  push_neg at h2
  obtain ⟨r, hr⟩ := h2
  obtain ⟨c, hc⟩ := combinerL_changed_zero n _ (rowOf_length b r) hr
  exact ⟨r, c, hc⟩

theorem apply_move1_ne_has_zero {n : Nat} (b : Board n) (h : apply_move b 1 ≠ b) :
    ∃ r c, apply_move b 1 r c = 0 := by
  have h2 : ¬ ∀ r : Fin n, (combinerR n (rowOf b r)).newLine = rowOf b r := by
    intro hall
    exact h ((apply_move1_eq_iff b).mpr hall)
  push_neg at h2
  obtain ⟨r, hr⟩ := h2
  obtain ⟨c, hc⟩ := combinerR_changed_zero n _ (rowOf_length b r) hr
  exact ⟨r, c, hc⟩

theorem apply_move_ne_has_zero {n : Nat} (b : Board n) (a : Fin 4)
    (h : apply_move b a.val ≠ b) : ∃ r c, apply_move b a.val r c = 0 := by
  fin_cases a
  · exact apply_move0_ne_has_zero b h
  · exact apply_move1_ne_has_zero b h
  · have h2 : apply_move (transposeB b) 0 ≠ transposeB b := by
      intro he
      apply h
      rw [apply_move2_transpose, he]
      rfl
    obtain ⟨r, c, hz⟩ := apply_move0_ne_has_zero (transposeB b) h2
    exact ⟨c, r, hz⟩
  · have h2 : apply_move (transposeB b) 1 ≠ transposeB b := by
      intro he
      apply h
      rw [apply_move3_transpose, he]
      rfl
    obtain ⟨r, c, hz⟩ := apply_move1_ne_has_zero (transposeB b) h2
    exact ⟨c, r, hz⟩

theorem update_legal_ne {n : Nat} (b : Board n) (d : Fin 4)
    (h : update_legal_moves b d.val = true) : apply_move b d.val ≠ b := by
  fin_cases d
  · exact (legal0_iff b).mp h
  · exact (legal1_iff b).mp h
  · exact (legal2_iff b).mp h
  · exact (legal3_iff b).mp h

/-- C9 counterexample: at size 1 the second seeding call of reset finds
no empty cell.  After the first spawn the list of empty positions of the
board is empty, and reset of a size 1 engine fails: the no-empty-cell
failure branch of the spawn is reached from reset, so the claim as
stated is false for the size 1 engine. -/
theorem C9_counterexample :
    zero_pos (setCell ((fun _ _ => 0) : Board 1) 0 0 (random_1_2 true)) = [] ∧
    spawn_block ((fun _ _ => 0) : Board 1) 0 (random_1_2 true)
      = some (setCell ((fun _ _ => 0) : Board 1) 0 0 (random_1_2 true)) ∧
    reset 1 0 0 true 0 true = none := by
  exact ⟨rfl, rfl, rfl⟩

/-- C9 amended (the counterexample forces restricting to size at least
2): spawn safety and validity.  For every board size of at least 2: the
first seeding call of reset sees a board with at least one empty cell;
after any successful first seeding spawn the board still has at least
one empty cell; reset succeeds for every in-range pair of draws; at the
post-move spawn call of step, from any reachable state, a legal action
leaves at least one empty cell on the moved board, so the no-empty-cell
failure branch is unreachable; and every successful spawn writes
exponent 1 or 2 into a cell that was empty immediately before the call
and leaves every other cell unchanged. -/
theorem C9_amended_spawn_safety (n g : Nat) (hn : 2 ≤ n) :
    (zero_pos ((fun _ _ => 0) : Board n) ≠ [])
    ∧ (∀ (i1 : Nat) (v1 : Bool) (b1 : Board n),
        spawn_block ((fun _ _ => 0) : Board n) i1 (random_1_2 v1) = some b1 →
        zero_pos b1 ≠ [])
    ∧ (∀ (best : Int) (i1 : Nat) (v1 : Bool) (i2 : Nat) (v2 : Bool) (b1 : Board n),
        spawn_block ((fun _ _ => 0) : Board n) i1 (random_1_2 v1) = some b1 →
        i2 < (zero_pos b1).length →
        ∃ s, reset n best i1 v1 i2 v2 = some s)
    ∧ (∀ (s : EnvState n) (a : Fin 4), Reach n g s false →
        s.legal_moves a = true →
        zero_pos (apply_move s.board a.val) ≠ [])
    ∧ (∀ (b : Board n) (idx : Nat) (v : Bool) (b2 : Board n),
        spawn_block b idx (random_1_2 v) = some b2 →
        ∃ r c, b r c = 0 ∧ (random_1_2 v = 1 ∨ random_1_2 v = 2) ∧
          b2 r c = random_1_2 v ∧
          ∀ r2 c2, ¬(r2 = r ∧ c2 = c) → b2 r2 c2 = b r2 c2) := by
  have hpos : 0 < n := by omega
  refine ⟨?_, ?_, ?_, ?_, ?_⟩
  · exact List.ne_nil_of_mem (mem_zero_pos _ ⟨0, hpos⟩ ⟨0, hpos⟩ rfl)
  · intro i1 v1 b1 hsp
    obtain ⟨p, _, hb1, _⟩ := spawn_block_inv _ i1 _ b1 hsp
    by_cases hp : p.1.val = 0
    · have hne : (⟨1, by omega⟩ : Fin n) ≠ p.1 := by
        intro he
        have := congrArg Fin.val he
        simp [hp] at this
      refine List.ne_nil_of_mem (mem_zero_pos b1 ⟨1, by omega⟩ ⟨0, hpos⟩ ?_)
      rw [hb1]
      unfold setCell
      rw [if_neg (by intro hcon; exact hne hcon.1)]
    · have hne : (⟨0, hpos⟩ : Fin n) ≠ p.1 := by
        intro he
        have := congrArg Fin.val he
        simp at this
        omega
      refine List.ne_nil_of_mem (mem_zero_pos b1 ⟨0, hpos⟩ ⟨0, hpos⟩ ?_)
      rw [hb1]
      unfold setCell
      rw [if_neg (by intro hcon; exact hne hcon.1)]
  · intro best i1 v1 i2 v2 b1 hsp1 hi2
    unfold reset
    rw [hsp1]
    simp only []
    unfold spawn_block
    rw [List.getElem?_eq_getElem hi2]
    exact ⟨_, rfl⟩
  · intro s a hre hleg
    have hsync := reach_sync n g s false hre
    have h2 : update_legal_moves s.board a.val = true := by
      rw [hsync] at hleg
      exact hleg
    obtain ⟨r, c, hz⟩ := apply_move_ne_has_zero s.board a (update_legal_ne s.board a h2)
    exact List.ne_nil_of_mem (mem_zero_pos _ r c hz)
  · intro b idx v b2 hsp
    obtain ⟨p, _, hb2, hz⟩ := spawn_block_inv _ idx _ b2 hsp
    refine ⟨p.1, p.2, hz, ?_, ?_, ?_⟩
    · cases v with
      | false => exact Or.inr rfl
      | true => exact Or.inl rfl
    · rw [hb2]
      unfold setCell
      rw [if_pos ⟨rfl, rfl⟩]
    · intro r2 c2 hne
      rw [hb2]
      unfold setCell
      rw [if_neg hne]

/-- C9 witness: the amended spawn safety theorem at size 4: the fresh
all-zero board has at least one empty cell. -/
theorem C9_amended_spawn_safety_witness : zero_pos ((fun _ _ => 0) : Board 4) ≠ [] :=
  (C9_amended_spawn_safety 4 11 (by omega)).1

end Game2048
